import Mathlib

/-
Verification of the RAG pipeline of a PDF study-assistant server:
document chunking, diversity-aware retrieval (MMR), context compression,
token-budgeted prompt assembly, conversational memory, and the index
build/failure lifecycle.

The definitions below shallowly embed the TypeScript source.  Conventions:
* JS numbers on these code paths are nonnegative integers (token counts,
  lengths, ids) and are modelled as `Nat`; where the source can produce a
  negative intermediate (a budget subtraction fed to `substring`) the
  computation is done in `Int` and clamped exactly as JS `substring` does.
* Embedding vectors hold JS floats; they are idealised as `List ℝ`.
* Code that can throw (non-null assertions reaching `undefined`,
  mismatched vector lengths, provider failures) returns `Except String`.
* External collaborators (OpenAI, the database, the filesystem) enter as
  explicit parameters: their responses are arguments, their stores are
  explicit state records.
-/

namespace LseRag

/-! ## Token estimation (identical in streaming.ts, indexing.ts, db.ts)

`estimateTokens(text) = Math.ceil(text.length / 4)`. -/

def estimateTokens (text : String) : Nat :=
  (text.length + 3) / 4

/-- `estimateMessageTokens` from db.ts: same 4-chars-per-token estimate. -/
def estimateMessageTokens (content : String) : Nat :=
  (content.length + 3) / 4

/-! ## JS string primitives used by the source -/

/-- JS `s.substring(0, n)` for a nonnegative `n` (JS clamps `n` to the
string length). -/
def jsSubstring (s : String) (n : Nat) : String :=
  String.mk (s.data.take n)

/-- Whitespace test backing the `\s` character class for the inputs this
code handles (space, tab, newline, carriage return, form feed). -/
def isWsChar (c : Char) : Bool :=
  c = ' ' || c = '\t' || c = '\n' || c = '\r' || c = '\x0c'

/-! ## Chunk data model (indexing.ts `PdfChunk`, retrieval.ts `RetrievedChunk`) -/

structure PdfChunk where
  chunk_no : Nat
  page_start : Nat
  page_end : Nat
  content : String
  tokens : Nat
  preview : String
  embedding : Option (List ℝ)

structure RetrievedChunk extends PdfChunk where
  similarity : ℝ

/-- Sum of the `tokens` fields of a retrieved-chunk list; this is exactly
the quantity `retrieveContext` reports as `totalTokens`. -/
def sumTokens (l : List RetrievedChunk) : Nat :=
  (l.map (fun c => c.tokens)).sum

/-! ## `compressContext` (retrieval.ts lines 230–258)

Accumulates chunks in rank order while the running total stays within
`maxTokens`; on the first overflow it truncates the chunk to the leftover
budget only when more than 50 tokens remain, then stops. -/

def compressContextGo (maxTokens : Nat) : List RetrievedChunk → Nat → List RetrievedChunk
  | [], _ => []
  | c :: rest, totalTokens =>
    if totalTokens + c.tokens ≤ maxTokens then
      c :: compressContextGo maxTokens rest (totalTokens + c.tokens)
    else
      let remainingTokens := maxTokens - totalTokens
      if remainingTokens > 50 then
        let charLimit := remainingTokens * 4
        [{ c with content := jsSubstring c.content charLimit ++ "...",
                  tokens := remainingTokens }]
      else []

def compressContext (chunks : List RetrievedChunk) (maxTokens : Nat) :
    List RetrievedChunk :=
  compressContextGo maxTokens chunks 0

/-! ### Lemmas about `compressContext` -/

theorem compressContextGo_sum (maxTokens : Nat) :
    ∀ (l : List RetrievedChunk) (t : Nat), t ≤ maxTokens →
      t + sumTokens (compressContextGo maxTokens l t) ≤ maxTokens := by
  intro l
  induction l with
  | nil => intro t ht; simpa [compressContextGo, sumTokens] using ht
  | cons c rest ih =>
    intro t ht
    by_cases h : t + c.tokens ≤ maxTokens
    · have := ih (t + c.tokens) h
      simp only [compressContextGo, if_pos h, sumTokens, List.map_cons, List.sum_cons]
      simp only [sumTokens] at this
      omega
    · simp only [compressContextGo, if_neg h]
      by_cases h50 : maxTokens - t > 50
      · simp only [if_pos h50, sumTokens, List.map_cons, List.map_nil,
          List.sum_cons, List.sum_nil]
        omega
      · simp only [if_neg h50, sumTokens, List.map_nil, List.sum_nil]
        omega

theorem compressContextGo_keys (maxTokens : Nat) :
    ∀ (l : List RetrievedChunk) (t : Nat),
      (compressContextGo maxTokens l t).map (fun c => c.chunk_no) =
        (l.map (fun c => c.chunk_no)).take (compressContextGo maxTokens l t).length := by
  intro l
  induction l with
  | nil => intro t; simp [compressContextGo]
  | cons c rest ih =>
    intro t
    by_cases h : t + c.tokens ≤ maxTokens
    · simp only [compressContextGo, if_pos h, List.map_cons, List.length_cons,
        List.take_succ_cons]
      rw [ih (t + c.tokens)]
    · simp only [compressContextGo, if_neg h]
      by_cases h50 : maxTokens - t > 50
      · simp [if_pos h50]
      · simp [if_neg h50]

/-- C2: the compressed output's summed token estimate never exceeds
`maxTokens`, and the output follows rank order as a prefix: its sequence of
chunk numbers is an initial segment of the input's, so no earlier-ranked
chunk is dropped while a later-ranked one is kept. -/
theorem compressContext_budget_and_rank (chunks : List RetrievedChunk) (maxTokens : Nat) :
    sumTokens (compressContext chunks maxTokens) ≤ maxTokens ∧
    (compressContext chunks maxTokens).map (fun c => c.chunk_no) =
      (chunks.map (fun c => c.chunk_no)).take (compressContext chunks maxTokens).length := by
  constructor
  · have := compressContextGo_sum maxTokens chunks 0 (Nat.zero_le _)
    simpa [compressContext] using this
  · simpa [compressContext] using compressContextGo_keys maxTokens chunks 0

/-- A sample retrieved chunk used in concrete computations. -/
def rcSample (no tk : Nat) : RetrievedChunk :=
  { chunk_no := no, page_start := 1, page_end := 1, content := "c",
    tokens := tk, preview := "", embedding := none, similarity := 0 }

/-- C8 counterexample: with budget 100 and ranked chunks of 80 and 40
tokens, the overflowing second chunk leaves only 20 tokens of budget, which
is below the 50-token threshold, so it is dropped entirely rather than
truncated and appended — the output is the first chunk alone, refuting the
claim that the first overflowing chunk is always truncated and appended. -/
theorem compressContext_no_truncation_counterexample :
    compressContext [rcSample 0 80, rcSample 1 40] 100 = [rcSample 0 80] := by
  rfl

/-- C8 (amended): once the prefix `pre` fits the budget and chunk `c`
overflows it, `c` is truncated to the remaining budget (times 4 characters)
with a `"..."` marker and appended only when more than 50 tokens of budget
remain; otherwise `c` is dropped.  Either way accumulation stops there and
all later-ranked chunks are dropped, never reordered. -/
theorem compressContext_truncation_spec (pre : List RetrievedChunk)
    (c : RetrievedChunk) (post : List RetrievedChunk) (maxTokens : Nat)
    (hpre : sumTokens pre ≤ maxTokens)
    (hc : maxTokens < sumTokens pre + c.tokens) :
    compressContext (pre ++ c :: post) maxTokens =
      pre ++ (if maxTokens - sumTokens pre > 50 then
        [{ c with content := jsSubstring c.content ((maxTokens - sumTokens pre) * 4) ++ "...",
                  tokens := maxTokens - sumTokens pre }]
      else []) := by
  have aux : ∀ (pre : List RetrievedChunk) (t : Nat),
      t + sumTokens pre ≤ maxTokens → maxTokens < t + sumTokens pre + c.tokens →
      compressContextGo maxTokens (pre ++ c :: post) t =
        pre ++ (if maxTokens - (t + sumTokens pre) > 50 then
          [{ c with content := jsSubstring c.content ((maxTokens - (t + sumTokens pre)) * 4) ++ "...",
                    tokens := maxTokens - (t + sumTokens pre) }]
        else []) := by
    intro pre
    induction pre with
    | nil =>
      intro t ht hover
      simp only [sumTokens, List.map_nil, List.sum_nil, Nat.add_zero] at ht hover ⊢
      simp only [List.nil_append, compressContextGo]
      rw [if_neg (by omega)]
    | cons p rest ih =>
      intro t ht hover
      have hsum : sumTokens (p :: rest) = p.tokens + sumTokens rest := by
        simp [sumTokens]
      rw [hsum] at ht hover
      have hp : t + p.tokens ≤ maxTokens := by omega
      simp only [List.cons_append, compressContextGo, if_pos hp, List.append_eq]
      rw [ih (t + p.tokens) (by omega) (by omega)]
      have harith : t + p.tokens + sumTokens rest = t + sumTokens (p :: rest) := by
        rw [hsum]; omega
      rw [harith]
  have := aux pre 0 (by omega) (by omega)
  simpa [compressContext] using this

/-- Witness for the amended C8 theorem at a concrete input where
truncation does fire: budget 200, prefix of 80 tokens, overflowing chunk of
100 tokens, 120 tokens of budget remain (> 50). -/
theorem compressContext_truncation_spec_witness :
    sumTokens [rcSample 0 80] ≤ 200 ∧
    200 < sumTokens [rcSample 0 80] + (rcSample 1 150).tokens ∧
    compressContext ([rcSample 0 80] ++ rcSample 1 150 :: []) 200 =
      [rcSample 0 80] ++ (if 200 - sumTokens [rcSample 0 80] > 50 then
        [{ rcSample 1 150 with
            content := jsSubstring (rcSample 1 150).content ((200 - sumTokens [rcSample 0 80]) * 4) ++ "...",
            tokens := 200 - sumTokens [rcSample 0 80] }]
      else []) :=
  ⟨by decide, by decide,
    compressContext_truncation_spec [rcSample 0 80] (rcSample 1 150) [] 200
      (by decide) (by decide)⟩

/-! ## `cosineSimilarity` (retrieval.ts lines 75–96)

Throws on mismatched vector lengths; returns 0 when either magnitude is 0. -/

noncomputable def cosineSimilarity (vecA vecB : List ℝ) : Except String ℝ :=
  if vecA.length ≠ vecB.length then
    Except.error "Vectors must have the same length"
  else
    let dotProduct := ((vecA.zip vecB).map (fun p => p.1 * p.2)).sum
    let magnitudeA := Real.sqrt ((vecA.map (fun x => x * x)).sum)
    let magnitudeB := Real.sqrt ((vecB.map (fun x => x * x)).sum)
    if magnitudeA = 0 ∨ magnitudeB = 0 then Except.ok 0
    else Except.ok (dotProduct / (magnitudeA * magnitudeB))

/-! ## `hasDefinitionIndicators` (retrieval.ts lines 101–117)

A faithful model of the fixed regex battery: ten case-insensitive
word-boundary substring patterns (the alternation `\bdefin(e|ition|ed)\b`
is the word set {define, definition, defined}) and one multiline
capitalized-line-start pattern `^[A-Z][a-z]+:?\s`. -/

/-- JS `\w`: ASCII alphanumeric or underscore. -/
def isWordChar (c : Char) : Bool :=
  c.isAlphanum || c = '_'

def ciEq (a b : Char) : Bool :=
  a.toLower = b.toLower

def ciPrefixAt : List Char → List Char → Bool
  | [], _ => true
  | _ :: _, [] => false
  | p :: ps, c :: cs => ciEq p c && ciPrefixAt ps cs

/-- Case-insensitive match of `pat` at the current position with `\b` on
both sides; sound for patterns that start and end with a word character,
as all the definitional patterns do. -/
def wbMatchHere (pat : List Char) (prev : Option Char) (s : List Char) : Bool :=
  (match prev with | none => true | some c => !isWordChar c) &&
  ciPrefixAt pat s &&
  (match s.drop pat.length with | [] => true | c :: _ => !isWordChar c)

def wbSearchGo (pat : List Char) : Option Char → List Char → Bool
  | prev, [] => wbMatchHere pat prev []
  | prev, c :: rest => wbMatchHere pat prev (c :: rest) || wbSearchGo pat (some c) rest

def wbContains (pat s : String) : Bool :=
  wbSearchGo pat.data none s.data

/-- `^[A-Z][a-z]+:?\s` at one position: an ASCII uppercase letter, one or
more lowercase letters, an optional colon, then a whitespace character. -/
def capLineHere : List Char → Bool
  | [] => false
  | c0 :: rest =>
    c0.isUpper &&
    (let lowers := rest.takeWhile (fun c => c.isLower)
     decide (1 ≤ lowers.length) &&
     (match rest.drop lowers.length with
      | ':' :: c :: _ => isWsChar c
      | c :: _ => isWsChar c
      | [] => false))

def capLineGo : Bool → List Char → Bool
  | _, [] => false
  | atStart, c :: rest => (atStart && capLineHere (c :: rest)) || capLineGo (c = '\n') rest

/-- The `/m` flag makes `^` match at the string start and after each newline. -/
def capitalizedLineStart (s : String) : Bool :=
  capLineGo true s.data

def hasDefinitionIndicators (text : String) : Bool :=
  wbContains "is defined as" text || wbContains "refers to" text ||
  wbContains "means that" text || wbContains "is a" text || wbContains "is an" text ||
  wbContains "define" text || wbContains "definition" text || wbContains "defined" text ||
  wbContains "characterized by" text || wbContains "can be described as" text ||
  wbContains "essentially" text || wbContains "in other words" text ||
  capitalizedLineStart text

/-! ## `calculatePriorityBoost` (retrieval.ts lines 123–143) -/

noncomputable def calculatePriorityBoost (chunk : PdfChunk) (totalChunks : Nat) : ℝ :=
  (0.15 * (1 - (chunk.chunk_no : ℝ) / (totalChunks : ℝ)))
  + (if hasDefinitionIndicators chunk.content then 0.10 else 0)
  + (if 50 ≤ chunk.tokens ∧ chunk.tokens ≤ 200 then 0.05 else 0)

/-! ## `mmrSearch` (retrieval.ts lines 150–224) -/

/-- The average query embedding: `avg[i] = Σ_e e[i] / n`, over indices of
the first query vector (the source allocates `new Array(queryEmbeds[0].length)`). -/
noncomputable def avgQueryEmbed (queryEmbeds : List (List ℝ)) (dim : Nat) : List ℝ :=
  (List.range dim).map (fun i =>
    queryEmbeds.foldl (fun acc e => acc + e.getD i 0 / (queryEmbeds.length : ℝ)) 0)

/-- A TypeScript non-null assertion `x!` on a value that is `undefined`
flows into `cosineSimilarity`, whose `.length` access then throws a
`TypeError`; we surface that throw at the access itself. -/
def jsNonNull : Option (List ℝ) → Except String (List ℝ)
  | none => Except.error "TypeError: Cannot read properties of undefined"
  | some v => Except.ok v

/-- Sequential effectful map: JS `Array.prototype.map` over a body that
can throw aborts at the first throw. -/
def exMapM (f : α → Except String β) : List α → Except String (List β)
  | [] => Except.ok []
  | a :: as => do
    let b ← f a
    let bs ← exMapM f as
    pure (b :: bs)

/-- One step of the `chunks.map` that computes boosted similarities:
spread of the chunk plus `similarity: Math.min(1.0, base + boost)`. -/
noncomputable def rankStep (avg : List ℝ) (totalChunks : Nat) (ch : PdfChunk) :
    Except String RetrievedChunk := do
  let e ← jsNonNull ch.embedding
  let baseSimilarity ← cosineSimilarity avg e
  pure { toPdfChunk := ch,
         similarity := min 1 (baseSimilarity + calculatePriorityBoost ch totalChunks) }

/-- The candidates array of `mmrSearch`: average the query embeddings
(reading `queryEmbeds[0].length`, which throws on an empty list), then map
every chunk to a boosted-similarity candidate. -/
noncomputable def rankCandidates (queryEmbeds : List (List ℝ)) (chunks : List PdfChunk) :
    Except String (List RetrievedChunk) :=
  match queryEmbeds with
  | [] => Except.error "TypeError: Cannot read properties of undefined"
  | q0 :: _ =>
    exMapM (rankStep (avgQueryEmbed queryEmbeds q0.length) chunks.length) chunks

/-- The JS comparator `(a, b) => b.similarity - a.similarity` as an
ordering test: `a` may precede `b` when `b.similarity ≤ a.similarity`. -/
noncomputable def simLe (a b : RetrievedChunk) : Bool :=
  decide (b.similarity ≤ a.similarity)

/-- `candidates.sort((a, b) => b.similarity - a.similarity)`: stable sort,
descending by similarity. -/
noncomputable def sortBySimilarity (l : List RetrievedChunk) : List RetrievedChunk :=
  l.mergeSort simLe

/-- The running `maxSimilarity` loop over already-selected chunks, with
both non-null assertions modelled. -/
noncomputable def maxSimGo (cEmb : Option (List ℝ)) :
    List RetrievedChunk → ℝ → Except String ℝ
  | [], m => Except.ok m
  | s :: rest, m => do
    let e1 ← jsNonNull cEmb
    let e2 ← jsNonNull s.embedding
    let sim ← cosineSimilarity e1 e2
    maxSimGo cEmb rest (max m sim)

/-- `mmrScore = lambda * relevance - (1 - lambda) * maxSimilarity`. -/
noncomputable def mmrScore (lam : ℝ) (selected : List RetrievedChunk)
    (candidate : RetrievedChunk) : Except String ℝ := do
  let maxSimilarity ← maxSimGo candidate.embedding selected 0
  pure (lam * candidate.similarity - (1 - lam) * maxSimilarity)

/-- JS `bestScore > -Infinity` comparisons: `none` plays `-Infinity`. -/
noncomputable def scoreBeats (bestScore : Option ℝ) (s : ℝ) : Bool :=
  match bestScore with
  | none => true
  | some b => decide (b < s)

/-- The inner argmax loop: `bestScore = -Infinity; bestIndex = 0;` then a
strict-improvement scan over the remaining candidates. -/
noncomputable def bestIndexGo (lam : ℝ) (selected : List RetrievedChunk) :
    List RetrievedChunk → Nat → Option ℝ → Nat → Except String Nat
  | [], _, _, bestIndex => Except.ok bestIndex
  | cand :: rest, i, bestScore, bestIndex => do
    let s ← mmrScore lam selected cand
    if scoreBeats bestScore s then bestIndexGo lam selected rest (i + 1) (some s) i
    else bestIndexGo lam selected rest (i + 1) bestScore bestIndex

/-- The greedy selection loop (`while selected.length < k && remaining.length > 0`);
the fuel is `k - selected.length`, which the loop decrements by one each
iteration.  `remaining.splice(bestIndex, 1)[0]` is `getD`/`eraseIdx` at the
returned index, which the loop keeps in bounds. -/
noncomputable def mmrGo (lam : ℝ) : Nat → List RetrievedChunk → List RetrievedChunk →
    Except String (List RetrievedChunk)
  | 0, selected, _ => Except.ok selected
  | _ + 1, selected, [] => Except.ok selected
  | fuel + 1, selected, c :: rest =>
    if selected.isEmpty then mmrGo lam fuel (selected ++ [c]) rest
    else do
      let j ← bestIndexGo lam selected (c :: rest) 0 none 0
      mmrGo lam fuel (selected ++ [(c :: rest).getD j c]) ((c :: rest).eraseIdx j)

/-- `mmrSearch(queryEmbeds, chunks, k, lambda)`: guard on an empty chunk
list or a missing embedding on the *first* chunk only, then rank, sort,
and greedily select. -/
noncomputable def mmrSearch (queryEmbeds : List (List ℝ)) (chunks : List PdfChunk)
    (k : Nat) (lam : ℝ) : Except String (List RetrievedChunk) :=
  match chunks with
  | [] => Except.ok []
  | c0 :: _ =>
    match c0.embedding with
    | none => Except.ok []
    | some _ => do
      let candidates ← rankCandidates queryEmbeds chunks
      mmrGo lam k [] (sortBySimilarity candidates)

/-- Reference ranking, from the spec's words for `lambda = 1`: the same
guards and boosted similarities, but the selection is literally "sort all
chunks by boosted similarity descending and take the first k". -/
noncomputable def pureRelevanceTopK (queryEmbeds : List (List ℝ)) (chunks : List PdfChunk)
    (k : Nat) : Except String (List RetrievedChunk) :=
  match chunks with
  | [] => Except.ok []
  | c0 :: _ =>
    match c0.embedding with
    | none => Except.ok []
    | some _ => do
      let candidates ← rankCandidates queryEmbeds chunks
      Except.ok ((sortBySimilarity candidates).take k)

/-! ## `retrieveContext` (retrieval.ts lines 263–323)

The provider calls (query expansion, query embedding) are external; the
resolved query-embedding response enters as an `Except`-valued argument.
The surrounding `try/catch` turns any thrown error into a typed result. -/

structure PdfIndex where
  fileId : Nat
  checksum : List Nat
  chunks : List PdfChunk
  indexedAt : String
  totalChunks : Nat

structure RetrievalResult where
  chunks : List RetrievedChunk
  totalTokens : Nat
  error : Option String

noncomputable def retrieveContext (index : Option PdfIndex)
    (queryEmbedsRes : Except String (List (List ℝ)))
    (k : Nat) (lam : ℝ) (maxContextTokens : Nat) : RetrievalResult :=
  match index with
  | none => { chunks := [], totalTokens := 0, error := some "No index found or index is empty" }
  | some idx =>
    if idx.chunks.length = 0 then
      { chunks := [], totalTokens := 0, error := some "No index found or index is empty" }
    else
      match queryEmbedsRes with
      | Except.error e => { chunks := [], totalTokens := 0, error := some e }
      | Except.ok queryEmbeds =>
        match mmrSearch queryEmbeds idx.chunks k lam with
        | Except.error e => { chunks := [], totalTokens := 0, error := some e }
        | Except.ok retrieved =>
          let compressed := compressContext retrieved maxContextTokens
          { chunks := compressed, totalTokens := sumTokens compressed, error := none }

/-! ### Basic `Except` computation lemmas -/

theorem ok_bind {α β : Type} (b : α) (f : α → Except String β) :
    (Except.ok b >>= f : Except String β) = f b := rfl

theorem error_bind {α β : Type} (e : String) (f : α → Except String β) :
    (Except.error e >>= f : Except String β) = Except.error e := rfl

theorem pure_eq_ok {α : Type} (a : α) : (pure a : Except String α) = Except.ok a := rfl

/-- `cosineSimilarity` succeeds exactly when the vector lengths agree. -/
theorem cosineSimilarity_ok {a b : List ℝ} (h : a.length = b.length) :
    ∃ v, cosineSimilarity a b = Except.ok v := by
  unfold cosineSimilarity
  rw [if_neg (by simp [h])]
  dsimp only
  split
  · exact ⟨0, rfl⟩
  · exact ⟨_, rfl⟩

theorem cosineSimilarity_ok_length {a b : List ℝ} {v : ℝ}
    (h : cosineSimilarity a b = Except.ok v) : a.length = b.length := by
  by_contra hne
  unfold cosineSimilarity at h
  rw [if_pos (by simpa using hne)] at h
  cases h

theorem avgQueryEmbed_length (qs : List (List ℝ)) (dim : Nat) :
    (avgQueryEmbed qs dim).length = dim := by
  simp [avgQueryEmbed]

/-! ### C4: typed no-index result -/

/-- C4: when no index is persisted for the document, or the persisted
index has an empty chunk list, `retrieveContext` returns the typed result
`{chunks: [], totalTokens: 0, error: "No index found or index is empty"}`
(its total return type is the no-exception guarantee), for every provider
response and parameter choice. -/
theorem retrieveContext_no_index (index : Option PdfIndex)
    (queryEmbedsRes : Except String (List (List ℝ))) (k : Nat) (lam : ℝ)
    (maxContextTokens : Nat)
    (h : index = none ∨ ∃ idx, index = some idx ∧ idx.chunks = []) :
    retrieveContext index queryEmbedsRes k lam maxContextTokens =
      { chunks := [], totalTokens := 0,
        error := some "No index found or index is empty" } := by
  rcases h with h | ⟨idx, hi, hc⟩
  · subst h; rfl
  · subst hi; simp [retrieveContext, hc]

/-- Witness: `retrieveContext` with no persisted index. -/
theorem retrieveContext_no_index_witness :
    retrieveContext none (Except.ok [[1]]) 8 (3/10) 1600 =
      { chunks := [], totalTokens := 0,
        error := some "No index found or index is empty" } :=
  retrieveContext_no_index none (Except.ok [[1]]) 8 (3/10) 1600 (Or.inl rfl)

/-! ### C10: the embedding guard only inspects the first chunk -/

/-- A chunk with a one-dimensional embedding. -/
def pcEmb1 : PdfChunk :=
  { chunk_no := 0, page_start := 1, page_end := 1, content := "zzz",
    tokens := 1, preview := "", embedding := some [1] }

/-- A chunk with no embedding. -/
def pcNone : PdfChunk :=
  { chunk_no := 1, page_start := 1, page_end := 1, content := "zzz",
    tokens := 1, preview := "", embedding := none }

/-- C10: `mmrSearch` returns `[]` for an empty chunk list and whenever the
*first* chunk lacks an embedding (whatever `k`, `lambda`, the queries and
the later chunks); but the guard looks no further, so a missing embedding
on a later chunk slips past it and reaches `cosineSimilarity` through the
non-null assertion, which throws — here at a two-chunk list whose second
chunk has no embedding, even though the first ranks fine. -/
theorem mmrSearch_first_chunk_guard :
    (∀ (qs : List (List ℝ)) (k : Nat) (lam : ℝ), mmrSearch qs [] k lam = Except.ok []) ∧
    (∀ (qs : List (List ℝ)) (k : Nat) (lam : ℝ) (c : PdfChunk) (cs : List PdfChunk),
      c.embedding = none → mmrSearch qs (c :: cs) k lam = Except.ok []) ∧
    mmrSearch [[1]] [pcEmb1, pcNone] 2 (3/10) =
      Except.error "TypeError: Cannot read properties of undefined" := by
  refine ⟨fun qs k lam => rfl, ?_, ?_⟩
  · intro qs k lam c cs hc
    simp [mmrSearch, hc]
  · obtain ⟨v, hv⟩ := @cosineSimilarity_ok (avgQueryEmbed [[1]] 1) [(1 : ℝ)]
      (by simp [avgQueryEmbed_length])
    simp [mmrSearch, pcEmb1, pcNone, rankCandidates, exMapM, rankStep, jsNonNull,
      hv, ok_bind, error_bind]

/-- Witness for the guard branch of C10: a single chunk with no embedding
yields the empty result even for `k = 1`. -/
theorem mmrSearch_first_chunk_guard_witness :
    mmrSearch [[1]] [pcNone] 1 (3/10) = Except.ok [] :=
  mmrSearch_first_chunk_guard.2.1 [[1]] 1 (3/10) pcNone [] rfl

/-! ### C6: boosted similarity is capped at 1 but has no floor at 0 -/

theorem getD_mem_of_default_mem {α : Type} (l : List α) (j : Nat) (d : α)
    (hd : d ∈ l) : l.getD j d ∈ l := by
  rw [List.getD_eq_getElem?_getD]
  cases h : l[j]? with
  | none => simpa using hd
  | some a =>
    simp only [Option.getD_some]
    exact List.getElem?_mem h

/-- Every chunk selected by the greedy loop comes from the initial
selection or the remaining pool. -/
theorem mmrGo_mem (lam : ℝ) : ∀ (fuel : Nat) (sel rem out : List RetrievedChunk),
    mmrGo lam fuel sel rem = Except.ok out → ∀ x ∈ out, x ∈ sel ∨ x ∈ rem := by
  intro fuel
  induction fuel with
  | zero =>
    intro sel rem out h x hx
    simp only [mmrGo, Except.ok.injEq] at h
    subst h; exact Or.inl hx
  | succ n ih =>
    intro sel rem out h x hx
    cases rem with
    | nil =>
      simp only [mmrGo, Except.ok.injEq] at h
      subst h; exact Or.inl hx
    | cons c rest =>
      by_cases hsel : sel.isEmpty
      · rw [mmrGo, if_pos hsel] at h
        rcases ih (sel ++ [c]) rest out h x hx with hmem | hmem
        · rcases List.mem_append.mp hmem with hmem | hmem
          · exact Or.inl hmem
          · have hxc : x = c := List.mem_singleton.mp hmem
            exact Or.inr (hxc ▸ List.mem_cons_self c rest)
        · exact Or.inr (List.mem_cons_of_mem c hmem)
      · rw [mmrGo, if_neg hsel] at h
        cases hj : bestIndexGo lam sel (c :: rest) 0 none 0 with
        | error e => rw [hj, error_bind] at h; cases h
        | ok j =>
          rw [hj, ok_bind] at h
          rcases ih _ _ out h x hx with hmem | hmem
          · rcases List.mem_append.mp hmem with hmem | hmem
            · exact Or.inl hmem
            · have : (c :: rest).getD j c ∈ c :: rest :=
                getD_mem_of_default_mem _ j c (List.mem_cons_self c rest)
              exact Or.inr (by simpa [List.mem_singleton.mp hmem] using this)
          · exact Or.inr (List.eraseIdx_subset _ _ hmem)

theorem exMapM_ok_mem {α β : Type} {f : α → Except String β} :
    ∀ {l : List α} {ys : List β}, exMapM f l = Except.ok ys →
      ∀ y ∈ ys, ∃ x, f x = Except.ok y := by
  intro l
  induction l with
  | nil =>
    intro ys h y hy
    simp only [exMapM, Except.ok.injEq] at h
    subst h; cases hy
  | cons a as ih =>
    intro ys h y hy
    simp only [exMapM] at h
    cases hfa : f a with
    | error e => rw [hfa, error_bind] at h; cases h
    | ok b =>
      rw [hfa, ok_bind] at h
      cases hfas : exMapM f as with
      | error e => rw [hfas, error_bind] at h; cases h
      | ok bs =>
        rw [hfas, ok_bind, pure_eq_ok] at h
        have h' : b :: bs = ys := by simpa using h
        subst h'
        rcases List.mem_cons.mp hy with hy | hy
        · subst hy; exact ⟨a, hfa⟩
        · exact ih hfas y hy

/-- Each candidate produced by the similarity map has
`similarity = min 1 (base + boost) ≤ 1`. -/
theorem rankStep_sim_le {avg : List ℝ} {n : Nat} {ch : PdfChunk} {rc : RetrievedChunk}
    (h : rankStep avg n ch = Except.ok rc) : rc.similarity ≤ 1 := by
  unfold rankStep at h
  cases hce : ch.embedding with
  | none => rw [hce] at h; cases h
  | some e =>
    rw [hce] at h
    simp only [jsNonNull, ok_bind] at h
    cases hcs : cosineSimilarity avg e with
    | error e2 => rw [hcs, error_bind] at h; cases h
    | ok v =>
      rw [hcs, ok_bind, pure_eq_ok] at h
      injection h with h2
      rw [← h2]
      exact min_le_left _ _

/-- C6 (amended): every `RetrievedChunk` produced by a successful
`mmrSearch` has `similarity ≤ 1` (`Math.min(1.0, ·)` caps the boost); the
claimed lower bound 0 does not hold (see the counterexample: the code has
no floor, and a negative cosine similarity survives the boost). -/
theorem mmrSearch_similarity_le_one (qs : List (List ℝ)) (chunks : List PdfChunk)
    (k : Nat) (lam : ℝ) (out : List RetrievedChunk)
    (h : mmrSearch qs chunks k lam = Except.ok out) :
    ∀ rc ∈ out, rc.similarity ≤ 1 := by
  intro rc hrc
  cases chunks with
  | nil =>
    simp only [mmrSearch, Except.ok.injEq] at h
    subst h; cases hrc
  | cons c0 cs =>
    cases hce : c0.embedding with
    | none =>
      simp only [mmrSearch, hce, Except.ok.injEq] at h
      subst h; cases hrc
    | some e0 =>
      simp only [mmrSearch, hce] at h
      cases hr : rankCandidates qs (c0 :: cs) with
      | error e => rw [hr, error_bind] at h; cases h
      | ok cands =>
        rw [hr, ok_bind] at h
        have hmem : rc ∈ sortBySimilarity cands := by
          rcases mmrGo_mem lam k [] (sortBySimilarity cands) out h rc hrc with hm | hm
          · cases hm
          · exact hm
        have hmem' : rc ∈ cands := by
          simpa [sortBySimilarity] using hmem
        cases qs with
        | nil => cases hr
        | cons q0 qrest =>
          simp only [rankCandidates] at hr
          obtain ⟨x, hx⟩ := exMapM_ok_mem hr rc hmem'
          exact rankStep_sim_le hx

/-- A chunk anti-aligned with the query: cosine similarity −1. -/
def pcNeg : PdfChunk :=
  { chunk_no := 0, page_start := 1, page_end := 1, content := "zzz",
    tokens := 1, preview := "", embedding := some [-1] }

/-- The retrieved chunk `mmrSearch` produces for `pcNeg` under query
embedding `[[1]]`: base similarity −1, position boost 0.15, no other
boosts. -/
noncomputable def rcNegVal : RetrievedChunk :=
  { toPdfChunk := pcNeg, similarity := -(0.85 : ℝ) }

theorem avgQueryEmbed_one : avgQueryEmbed [[1]] 1 = [(1 : ℝ)] := by
  rw [avgQueryEmbed, show List.range 1 = [0] from rfl]
  simp

theorem cosineSimilarity_one_negOne :
    cosineSimilarity [(1 : ℝ)] [(-1 : ℝ)] = Except.ok (-1) := by
  unfold cosineSimilarity
  rw [if_neg (by simp)]
  have hsq : Real.sqrt ((1 : ℝ) * 1 + 0) = 1 := by
    rw [show (1 : ℝ) * 1 + 0 = 1 by ring, Real.sqrt_one]
  have hsq2 : Real.sqrt ((-1 : ℝ) * -1 + 0) = 1 := by
    rw [show (-1 : ℝ) * -1 + 0 = 1 by ring, Real.sqrt_one]
  simp only [List.zip_cons_cons, List.zip_nil_right, List.map_cons, List.map_nil,
    List.sum_cons, List.sum_nil, hsq, hsq2]
  rw [if_neg (by norm_num)]
  norm_num

theorem hasDefinitionIndicators_zzz : hasDefinitionIndicators "zzz" = false := by
  decide

theorem calculatePriorityBoost_pcNeg : calculatePriorityBoost pcNeg 1 = (0.15 : ℝ) := by
  norm_num [calculatePriorityBoost, pcNeg, hasDefinitionIndicators_zzz]

/-- Shared evaluation: `mmrSearch` on the anti-aligned chunk returns one
result whose similarity is −0.85. -/
theorem mmrSearch_pcNeg_eval :
    mmrSearch [[1]] [pcNeg] 8 (3/10) = Except.ok [rcNegVal] := by
  have hrank : rankStep (avgQueryEmbed [[1]] 1) 1 pcNeg = Except.ok rcNegVal := by
    unfold rankStep
    rw [show pcNeg.embedding = some [(-1 : ℝ)] from rfl]
    simp only [jsNonNull, ok_bind]
    rw [avgQueryEmbed_one, cosineSimilarity_one_negOne, ok_bind]
    have : min (1 : ℝ) (-1 + calculatePriorityBoost pcNeg 1) = -(0.85 : ℝ) := by
      rw [calculatePriorityBoost_pcNeg]
      rw [min_eq_right (by norm_num)]
      norm_num
    simp [rcNegVal, this, pure_eq_ok]
  have hcands : rankCandidates [[1]] [pcNeg] = Except.ok [rcNegVal] := by
    have hlen : List.length [(1 : ℝ)] = 1 := rfl
    have hlen2 : List.length [pcNeg] = 1 := rfl
    simp only [rankCandidates]
    rw [hlen, hlen2]
    simp only [exMapM]
    rw [hrank, ok_bind, ok_bind]
    rfl
  show (do
    let candidates ← rankCandidates [[1]] [pcNeg]
    mmrGo (3/10) 8 [] (sortBySimilarity candidates)) = Except.ok [rcNegVal]
  rw [hcands, ok_bind]
  simp only [sortBySimilarity, List.mergeSort_singleton]
  rw [show mmrGo (3/10) 8 [] [rcNegVal] = mmrGo (3/10) 7 [rcNegVal] [] from rfl]
  rfl

/-- C6 counterexample: at query embedding `[[1]]` and a single chunk with
embedding `[-1]`, `mmrSearch` outputs similarity −0.85 < 0, refuting the
claimed lower bound 0 for boosted similarity. -/
theorem mmrSearch_negative_similarity_counterexample :
    mmrSearch [[1]] [pcNeg] 8 (3/10) = Except.ok [rcNegVal] ∧
      rcNegVal.similarity < 0 :=
  ⟨mmrSearch_pcNeg_eval, by norm_num [rcNegVal]⟩

/-- Witness for the amended C6 theorem at a concrete successful search. -/
theorem mmrSearch_similarity_le_one_witness :
    mmrSearch [[1]] [pcNeg] 8 (3/10) = Except.ok [rcNegVal] ∧
      ∀ rc ∈ [rcNegVal], rc.similarity ≤ 1 :=
  ⟨mmrSearch_pcNeg_eval,
    mmrSearch_similarity_le_one [[1]] [pcNeg] 8 (3/10) [rcNegVal] mmrSearch_pcNeg_eval⟩

/-! ### C5: `lambda = 1` degrades to pure relevance ranking -/

/-- A retrieved chunk whose embedding is present with dimension `d`; every
candidate that survives the similarity map has this shape, because
`cosineSimilarity` against the `d`-dimensional average succeeded on it. -/
def hasEmbDim (d : Nat) (rc : RetrievedChunk) : Prop :=
  ∃ e, rc.embedding = some e ∧ e.length = d

theorem rankStep_embDim {avg : List ℝ} {n : Nat} {ch : PdfChunk} {rc : RetrievedChunk}
    (h : rankStep avg n ch = Except.ok rc) : hasEmbDim avg.length rc := by
  unfold rankStep at h
  cases hce : ch.embedding with
  | none => rw [hce] at h; cases h
  | some e =>
    rw [hce] at h
    simp only [jsNonNull, ok_bind] at h
    cases hcs : cosineSimilarity avg e with
    | error e2 => rw [hcs, error_bind] at h; cases h
    | ok v =>
      rw [hcs, ok_bind, pure_eq_ok] at h
      injection h with h2
      refine ⟨e, ?_, (cosineSimilarity_ok_length hcs).symm⟩
      rw [← h2]
      exact hce

theorem maxSimGo_ok {d : Nat} {cEmb : Option (List ℝ)} {e : List ℝ}
    (hce : cEmb = some e) (hlen : e.length = d) :
    ∀ (sel : List RetrievedChunk) (m : ℝ), (∀ s ∈ sel, hasEmbDim d s) →
      ∃ r, maxSimGo cEmb sel m = Except.ok r := by
  subst hce
  intro sel
  induction sel with
  | nil => intro m _; exact ⟨m, rfl⟩
  | cons s rest ih =>
    intro m hs
    obtain ⟨e2, he2, hl2⟩ := hs s (List.mem_cons_self _ _)
    obtain ⟨v, hv⟩ := @cosineSimilarity_ok e e2 (by rw [hlen, hl2])
    simp only [maxSimGo, he2, jsNonNull, ok_bind, hv]
    exact ih (max m v) (fun x hx => hs x (List.mem_cons_of_mem _ hx))

/-- With `lambda = 1` the diversity term is multiplied by 0, so the MMR
score of a candidate is exactly its boosted similarity. -/
theorem mmrScore_one {d : Nat} {sel : List RetrievedChunk} {cand : RetrievedChunk}
    (hc : hasEmbDim d cand) (hs : ∀ s ∈ sel, hasEmbDim d s) :
    mmrScore 1 sel cand = Except.ok cand.similarity := by
  obtain ⟨e, hce, hlen⟩ := hc
  obtain ⟨r, hr⟩ := maxSimGo_ok hce hlen sel 0 hs
  unfold mmrScore
  rw [hr, ok_bind,
    show (1 : ℝ) * cand.similarity - (1 - 1) * r = cand.similarity by ring]
  exact pure_eq_ok _

theorem bestIndexGo_stay {d : Nat} {sel : List RetrievedChunk}
    (hsel : ∀ s ∈ sel, hasEmbDim d s) :
    ∀ (l : List RetrievedChunk) (i : Nat) (b : ℝ) (bi : Nat),
      (∀ x ∈ l, hasEmbDim d x) → (∀ x ∈ l, x.similarity ≤ b) →
      bestIndexGo 1 sel l i (some b) bi = Except.ok bi := by
  intro l
  induction l with
  | nil => intro i b bi _ _; rfl
  | cons c rest ih =>
    intro i b bi hdim hle
    have hsc : mmrScore 1 sel c = Except.ok c.similarity :=
      mmrScore_one (hdim c (List.mem_cons_self _ _)) hsel
    have hbeat : scoreBeats (some b) c.similarity = false := by
      simp [scoreBeats, not_lt.mpr (hle c (List.mem_cons_self _ _))]
    simp only [bestIndexGo, hsc, ok_bind, hbeat, Bool.false_eq_true, if_false]
    exact ih (i + 1) b bi (fun x hx => hdim x (List.mem_cons_of_mem _ hx))
      (fun x hx => hle x (List.mem_cons_of_mem _ hx))

/-- On a similarity-sorted remainder, the strict-improvement argmax keeps
index 0: the head already realises the maximum score. -/
theorem bestIndexGo_sorted_head {d : Nat} {sel : List RetrievedChunk}
    (hsel : ∀ s ∈ sel, hasEmbDim d s) {c : RetrievedChunk} {rest : List RetrievedChunk}
    (hc : hasEmbDim d c) (hrest : ∀ x ∈ rest, hasEmbDim d x)
    (hle : ∀ x ∈ rest, x.similarity ≤ c.similarity) :
    bestIndexGo 1 sel (c :: rest) 0 none 0 = Except.ok 0 := by
  have hsc := mmrScore_one hc hsel
  simp only [bestIndexGo, hsc, ok_bind,
    show scoreBeats none c.similarity = true from rfl, if_true]
  exact bestIndexGo_stay hsel rest 1 c.similarity 0 hrest hle

theorem mmrGo_one {d : Nat} : ∀ (fuel : Nat) (sel l : List RetrievedChunk),
    sel ≠ [] → (∀ s ∈ sel, hasEmbDim d s) → (∀ x ∈ l, hasEmbDim d x) →
    List.Pairwise (fun a b => b.similarity ≤ a.similarity) l →
    mmrGo 1 fuel sel l = Except.ok (sel ++ l.take fuel) := by
  intro fuel
  induction fuel with
  | zero => intro sel l _ _ _ _; simp [mmrGo]
  | succ n ih =>
    intro sel l hne hsel hdim hsort
    cases l with
    | nil => simp [mmrGo]
    | cons c rest =>
      have hempty : sel.isEmpty = false := by
        cases sel
        · exact absurd rfl hne
        · rfl
      obtain ⟨hhead, htail⟩ := List.pairwise_cons.mp hsort
      have hbest : bestIndexGo 1 sel (c :: rest) 0 none 0 = Except.ok 0 :=
        bestIndexGo_sorted_head hsel (hdim c (List.mem_cons_self _ _))
          (fun x hx => hdim x (List.mem_cons_of_mem _ hx)) hhead
      rw [mmrGo, if_neg (by simp [hempty]), hbest, ok_bind,
        show (c :: rest).getD 0 c = c from rfl,
        show (c :: rest).eraseIdx 0 = rest from rfl,
        ih (sel ++ [c]) rest (by simp)
          (by intro s hs
              rcases List.mem_append.mp hs with hs | hs
              · exact hsel s hs
              · rw [List.mem_singleton.mp hs]; exact hdim c (List.mem_cons_self _ _))
          (fun x hx => hdim x (List.mem_cons_of_mem _ hx)) htail]
      simp [List.take_succ_cons]

theorem mmrGo_one_top {d : Nat} (k : Nat) (l : List RetrievedChunk)
    (hdim : ∀ x ∈ l, hasEmbDim d x)
    (hsort : List.Pairwise (fun a b => b.similarity ≤ a.similarity) l) :
    mmrGo 1 k [] l = Except.ok (l.take k) := by
  cases k with
  | zero => simp [mmrGo]
  | succ n =>
    cases l with
    | nil => simp [mmrGo]
    | cons c rest =>
      obtain ⟨hhead, htail⟩ := List.pairwise_cons.mp hsort
      rw [show mmrGo 1 (n + 1) [] (c :: rest) = mmrGo 1 n [c] rest from rfl,
        mmrGo_one n [c] rest (by simp)
          (by intro s hs
              rw [List.mem_singleton.mp hs]
              exact hdim c (List.mem_cons_self _ _))
          (fun x hx => hdim x (List.mem_cons_of_mem _ hx)) htail]
      simp [List.take_succ_cons]

/-- The stable sort by the JS comparator yields a list that is pairwise
non-increasing in similarity. -/
theorem simLe_trans : ∀ (a b c : RetrievedChunk), simLe a b → simLe b c → simLe a c :=
  fun _ _ _ hab hbc => decide_eq_true
    (le_trans (of_decide_eq_true hbc) (of_decide_eq_true hab))

theorem simLe_total : ∀ (a b : RetrievedChunk), simLe a b || simLe b a := by
  intro a b
  simp only [simLe, Bool.or_eq_true, decide_eq_true_eq]
  exact le_total b.similarity a.similarity

theorem sortBySimilarity_pairwise (l : List RetrievedChunk) :
    List.Pairwise (fun a b => b.similarity ≤ a.similarity) (sortBySimilarity l) := by
  have h := List.sorted_mergeSort simLe_trans simLe_total l
  exact h.imp (fun hab => of_decide_eq_true (by simpa [simLe] using hab))

/-- C5: for `lambda = 1` (for every query-embedding set, chunk list and
`k`), `mmrSearch` coincides with pure relevance ranking: the same guards
and boosted similarities, a descending stable sort, and the first `k`
entries — the diversity term has no effect. -/
theorem mmrSearch_lambda_one_pure_relevance (qs : List (List ℝ))
    (chunks : List PdfChunk) (k : Nat) :
    mmrSearch qs chunks k 1 = pureRelevanceTopK qs chunks k := by
  cases chunks with
  | nil => rfl
  | cons c0 cs =>
    cases hce : c0.embedding with
    | none => simp [mmrSearch, pureRelevanceTopK, hce]
    | some e0 =>
      simp only [mmrSearch, pureRelevanceTopK, hce]
      cases hr : rankCandidates qs (c0 :: cs) with
      | error e => rw [error_bind, error_bind]
      | ok cands =>
        rw [ok_bind, ok_bind]
        cases qs with
        | nil => simp [rankCandidates] at hr
        | cons q0 qrest =>
          have hdim : ∀ x ∈ sortBySimilarity cands, hasEmbDim q0.length x := by
            intro x hx
            have hx' : x ∈ cands := by
              simpa [sortBySimilarity] using hx
            simp only [rankCandidates] at hr
            obtain ⟨ch, hch⟩ := exMapM_ok_mem hr x hx'
            have := rankStep_embDim hch
            rwa [avgQueryEmbed_length] at this
          exact mmrGo_one_top k _ hdim (sortBySimilarity_pairwise cands)

/-! ## `buildPrompt` (streaming.ts lines 17–111)

Assembles the chat messages under the `MAX_PROMPT_TOKENS = 2800` ceiling:
system instructions + document label (never truncated), then the thread
summary (included whole below `ceiling − 500`, else truncated to the
leftover character budget with an ellipsis), then retrieved chunks in rank
order while staying within `ceiling − 200`, then the user message. -/

structure Citation where
  page_start : Nat
  page_end : Nat
  chunk_no : Nat

structure ChatMessage where
  role : String
  content : String

structure PromptResult where
  messages : List ChatMessage
  citations : List Citation

def defaultSystemPrompt : String :=
  "You are a study assistant. Answer concisely in British English using only the provided document context. Always cite page numbers in your answers."

def contextInfoOf (fileName : String) (moduleName : Option String) : String :=
  "\n\nDocument: " ++ fileName ++
    (match moduleName with
     | some m => " (" ++ m ++ ")"
     | none => "")

/-- `systemPrompt || defaultPrompt` plus the document label. -/
def fullSystemPromptOf (systemPrompt fileName : String) (moduleName : Option String) : String :=
  (if systemPrompt = "" then defaultSystemPrompt else systemPrompt) ++
    contextInfoOf fileName moduleName

def contextHeader : String := "\n\n=== Relevant Document Sections ===\n\n"

def noRelevantContext : String := "\n\nNo relevant sections found in the document.\n"

def chunkTextOf (c : RetrievedChunk) : String :=
  "[Pages " ++ toString c.page_start ++ "-" ++ toString c.page_end ++ "]:\n" ++
    c.content ++ "\n\n"

/-- The thread-summary step: include whole below `2800 − 500`, otherwise
truncate to `(2800 − tokensUsed − 500) * 4` characters (JS `substring`
clamps a negative budget to zero) and append `"..."`. -/
def summaryStep (threadSummaryIn : String) (tokensUsed : Nat) : String × Nat :=
  if threadSummaryIn.length > 0 then
    if tokensUsed + estimateTokens threadSummaryIn < 2800 - 500 then
      (threadSummaryIn, tokensUsed + estimateTokens threadSummaryIn)
    else
      (jsSubstring threadSummaryIn (((2800 : Int) - (tokensUsed : Int) - 500) * 4).toNat ++ "...",
       tokensUsed + estimateTokens
         (jsSubstring threadSummaryIn (((2800 : Int) - (tokensUsed : Int) - 500) * 4).toNat ++ "..."))
  else (threadSummaryIn, tokensUsed)

/-- The retrieved-chunk loop: append chunks in rank order, stopping before
the running total would pass `2800 − 200`; accumulates the context text,
the token counter and the citation list. -/
def buildContextGo : List RetrievedChunk → String → Nat → List Citation →
    String × Nat × List Citation
  | [], contextText, tokensUsed, citations => (contextText, tokensUsed, citations)
  | c :: rest, contextText, tokensUsed, citations =>
    let chunkTokens := estimateTokens (chunkTextOf c)
    if tokensUsed + chunkTokens > 2800 - 200 then (contextText, tokensUsed, citations)
    else
      buildContextGo rest (contextText ++ chunkTextOf c) (tokensUsed + chunkTokens)
        (citations ++ [{ page_start := c.page_start, page_end := c.page_end,
                         chunk_no := c.chunk_no }])

def buildPrompt (systemPrompt fileName : String) (moduleName : Option String)
    (threadSummaryIn userMessage : String) (retrievedChunks : List RetrievedChunk) :
    PromptResult :=
  let fullSystemPrompt := fullSystemPromptOf systemPrompt fileName moduleName
  let tokensUsed0 := estimateTokens fullSystemPrompt + estimateTokens userMessage
  let ss := summaryStep threadSummaryIn tokensUsed0
  let lr := buildContextGo retrievedChunks contextHeader ss.2 []
  let contextText := if lr.2.2.length = 0 then noRelevantContext else lr.1
  { messages :=
      [{ role := "system", content := fullSystemPrompt },
       { role := "system", content := contextText }]
      ++ (if ss.1.length > 0 then
            [{ role := "system", content := "Previous conversation:\n" ++ ss.1 }]
          else [])
      ++ [{ role := "user", content := userMessage }],
    citations := lr.2.2 }

/-- Total estimated tokens over the emitted messages, at the same
4-characters-per-token estimate the source uses. -/
def promptTokens (messages : List ChatMessage) : Nat :=
  (messages.map (fun m => estimateTokens m.content)).sum

/-! ### Lemmas about `buildPrompt` -/

theorem estimateTokens_append (a b : String) :
    estimateTokens (a ++ b) ≤ estimateTokens a + estimateTokens b := by
  simp only [estimateTokens, String.length_append]
  omega

theorem jsSubstring_length_le (s : String) (n : Nat) : (jsSubstring s n).length ≤ n := by
  simp only [jsSubstring, String.length]
  exact le_trans (Nat.le_of_eq (List.length_take _ _)) (min_le_left _ _)

/-- The summary step keeps the counter at `t0` when the summary is empty,
accounts the kept summary exactly, and lands at or below 2301 whenever the
base usage `t0` is at most 2300. -/
theorem summaryStep_spec (s : String) (t0 : Nat) (h : t0 ≤ 2300) :
    ((summaryStep s t0).1.length = 0 → (summaryStep s t0).2 = t0) ∧
    ((summaryStep s t0).1.length > 0 →
      (summaryStep s t0).2 = t0 + estimateTokens (summaryStep s t0).1) ∧
    (summaryStep s t0).2 ≤ 2301 := by
  unfold summaryStep
  by_cases hs : s.length > 0
  · rw [if_pos hs]
    by_cases hfit : t0 + estimateTokens s < 2800 - 500
    · rw [if_pos hfit]
      refine ⟨fun hl => absurd (show s.length = 0 from hl) (by omega), fun _ => rfl, ?_⟩
      show t0 + estimateTokens s ≤ 2301
      omega
    · rw [if_neg hfit]
      have htn : (((2800 : Int) - (t0 : Int) - 500) * 4).toNat = (2300 - t0) * 4 := by
        omega
      have hjs := jsSubstring_length_le s (((2800 : Int) - (t0 : Int) - 500) * 4).toNat
      have hlen : (jsSubstring s (((2800 : Int) - (t0 : Int) - 500) * 4).toNat ++
          "...").length =
          (jsSubstring s (((2800 : Int) - (t0 : Int) - 500) * 4).toNat).length + 3 := by
        rw [String.length_append]
        rfl
      have hest : estimateTokens (jsSubstring s
          (((2800 : Int) - (t0 : Int) - 500) * 4).toNat ++ "...") ≤ (2300 - t0) + 1 := by
        simp only [estimateTokens]
        rw [hlen]
        omega
      refine ⟨fun hl => ?_, fun _ => rfl, ?_⟩
      · exfalso
        rw [show ((jsSubstring s (((2800 : Int) - (t0 : Int) - 500) * 4).toNat ++ "...",
            t0 + estimateTokens (jsSubstring s
              (((2800 : Int) - (t0 : Int) - 500) * 4).toNat ++ "...")).1) =
            jsSubstring s (((2800 : Int) - (t0 : Int) - 500) * 4).toNat ++ "..."
          from rfl] at hl
        rw [hlen] at hl
        omega
      · show t0 + estimateTokens (jsSubstring s
            (((2800 : Int) - (t0 : Int) - 500) * 4).toNat ++ "...") ≤ 2301
        omega
  · rw [if_neg hs]
    refine ⟨fun _ => rfl, fun hl => absurd hl hs, ?_⟩
    show t0 ≤ 2301
    omega

/-- The chunk loop never pushes the counter past `max t 2600`, never
decreases it, and grows the context text estimate by at most the tokens it
accounts. -/
theorem buildContextGo_spec :
    ∀ (l : List RetrievedChunk) (ctx : String) (t : Nat) (cits : List Citation),
      t ≤ (buildContextGo l ctx t cits).2.1 ∧
      (buildContextGo l ctx t cits).2.1 ≤ max t 2600 ∧
      estimateTokens (buildContextGo l ctx t cits).1 ≤
        estimateTokens ctx + ((buildContextGo l ctx t cits).2.1 - t) := by
  intro l
  induction l with
  | nil =>
    intro ctx t cits
    simp only [buildContextGo]
    exact ⟨le_refl t, le_max_left _ _, by omega⟩
  | cons c rest ih =>
    intro ctx t cits
    by_cases hover : t + estimateTokens (chunkTextOf c) > 2800 - 200
    · simp only [buildContextGo, if_pos hover]
      exact ⟨le_refl t, le_max_left _ _, by omega⟩
    · simp only [buildContextGo, if_neg hover]
      obtain ⟨h1, h2, h3⟩ := ih (ctx ++ chunkTextOf c) (t + estimateTokens (chunkTextOf c))
        (cits ++ [{ page_start := c.page_start, page_end := c.page_end,
                    chunk_no := c.chunk_no }])
      refine ⟨by omega, by omega, ?_⟩
      have := estimateTokens_append ctx (chunkTextOf c)
      omega

/-- C1 (amended): provided the system message (instructions + document
label) and the user message together estimate to at most 2300 tokens
(= ceiling − 500, the headroom the truncation logic assumes), the total
estimated tokens of the assembled prompt never exceed 2800, for every
memory string and retrieved-chunk list.  Without that precondition the
ceiling can be exceeded, because neither the system prompt nor the user
message is ever truncated (see the counterexample). -/
theorem buildPrompt_token_budget (systemPrompt fileName : String)
    (moduleName : Option String) (threadSummaryIn userMessage : String)
    (retrievedChunks : List RetrievedChunk)
    (hbase : estimateTokens (fullSystemPromptOf systemPrompt fileName moduleName) +
      estimateTokens userMessage ≤ 2300) :
    promptTokens (buildPrompt systemPrompt fileName moduleName threadSummaryIn
      userMessage retrievedChunks).messages ≤ 2800 := by
  have hheader : estimateTokens contextHeader = 10 := rfl
  have hnorel : estimateTokens noRelevantContext = 12 := rfl
  set S := estimateTokens (fullSystemPromptOf systemPrompt fileName moduleName) with hS
  set U := estimateTokens userMessage with hU
  obtain ⟨hempty, hkeep, hcap⟩ := summaryStep_spec threadSummaryIn (S + U) (by omega)
  set ss := summaryStep threadSummaryIn (S + U) with hss
  obtain ⟨hmono, hmax, hctx⟩ := buildContextGo_spec retrievedChunks contextHeader ss.2 []
  set lr := buildContextGo retrievedChunks contextHeader ss.2 [] with hlr
  have hT2 : lr.2.1 ≤ 2600 := le_trans hmax (by omega)
  have hprefix : estimateTokens "Previous conversation:\n" = 6 := rfl
  have hprev : estimateTokens ("Previous conversation:\n" ++ ss.1) ≤
      6 + estimateTokens ss.1 := by
    have := estimateTokens_append "Previous conversation:\n" ss.1
    omega
  show promptTokens _ ≤ 2800
  simp only [buildPrompt, promptTokens, List.map_append, List.sum_append,
    List.map_cons, List.map_nil, List.sum_cons, List.sum_nil]
  rw [← hS, ← hU, ← hss, ← hlr]
  by_cases hslen : ss.1.length > 0
  · have heq := hkeep hslen
    rw [if_pos hslen]
    simp only [List.map_cons, List.map_nil, List.sum_cons, List.sum_nil]
    by_cases hcit : lr.2.2.length = 0
    · rw [if_pos hcit, hnorel]
      omega
    · rw [if_neg hcit]
      have := hctx
      rw [hheader] at this
      omega
  · have heq := hempty (by omega)
    rw [if_neg hslen]
    simp only [List.map_nil, List.sum_nil]
    by_cases hcit : lr.2.2.length = 0
    · rw [if_pos hcit, hnorel]
      omega
    · rw [if_neg hcit]
      have := hctx
      rw [hheader] at this
      omega

/-- A user message of 11200 characters (2800 estimated tokens on its own). -/
def bigUserMessage : String := String.mk (List.replicate 11200 'a')

set_option maxRecDepth 100000 in
/-- C1 counterexample: nothing truncates the user message, so a 2800-token
user message alone already busts the ceiling — the assembled prompt for an
empty memory and no chunks estimates to 2852 tokens (40 for the system
message, 12 for the "no relevant sections" notice, 2800 for the user
message), exceeding 2800. -/
theorem buildPrompt_over_budget_counterexample :
    promptTokens (buildPrompt "" "f" none "" bigUserMessage []).messages = 2852 ∧
    2800 < 2852 := by
  constructor
  · have hmsgs : (buildPrompt "" "f" none "" bigUserMessage []).messages =
        [{ role := "system", content := fullSystemPromptOf "" "f" none },
         { role := "system", content := noRelevantContext },
         { role := "user", content := bigUserMessage }] := rfl
    have hbig : estimateTokens bigUserMessage = 2800 := by
      simp only [estimateTokens, bigUserMessage, String.length, List.length_replicate]
    simp only [promptTokens, hmsgs, List.map_cons, List.map_nil, List.sum_cons,
      List.sum_nil, hbig]
    rfl
  · omega

set_option maxRecDepth 100000 in
/-- Witness for the amended C1 theorem at a small concrete input. -/
theorem buildPrompt_token_budget_witness :
    estimateTokens (fullSystemPromptOf "" "f" none) + estimateTokens "hi" ≤ 2300 ∧
    promptTokens (buildPrompt "" "f" none "" "hi" []).messages ≤ 2800 :=
  ⟨by decide, buildPrompt_token_budget "" "f" none "" "hi" [] (by decide)⟩

/-! ## `chunkText` (indexing.ts lines 391–448)

Greedy word accumulation: a chunk closes when adding the next word would
exceed `chunkSize` estimated tokens and the buffer is nonempty; the next
buffer is seeded with the last `overlap` entries of the closed buffer's
whitespace split, re-estimated from scratch. -/

/-- JS `str.split(/\s+/)`: split on maximal whitespace runs, keeping the
empty string that a leading or trailing run produces.  The first argument
is structural fuel; `splitWs` supplies the list length, which the
recursion never exhausts (each step consumes at least one character). -/
def splitWsGo : Nat → List Char → List Char → List String
  | _, [], acc => [String.mk acc.reverse]
  | 0, _ :: _, _ => []
  | fuel + 1, c :: rest, acc =>
    if isWsChar c then
      String.mk acc.reverse :: splitWsGo fuel (rest.dropWhile (fun ch => isWsChar ch)) []
    else
      splitWsGo fuel rest (c :: acc)

def splitWs (s : String) : List String :=
  splitWsGo s.data.length s.data []

/-- JS `String.prototype.trim`: strip whitespace from both ends. -/
def strTrim (s : String) : String :=
  String.mk (((s.data.dropWhile (fun c => isWsChar c)).reverse.dropWhile
    (fun c => isWsChar c)).reverse)

/-- JS `arr.slice(-n)`: the last `n` elements for `n > 0` (the whole array
when `n ≥ length`); `slice(-0)` is `slice(0)`, the whole array. -/
def jsSliceNeg (l : List α) (n : Nat) : List α :=
  if n = 0 then l else l.drop (l.length - n)

/-- JS `arr.join(" ")`: elements interleaved with single spaces. -/
def joinSpace : List String → String
  | [] => ""
  | [w] => w
  | w :: rest => w ++ " " ++ joinSpace rest

structure ChunkState where
  chunks : List PdfChunk
  chunkNo : Nat
  currentChunk : String
  currentTokens : Nat
  chunkStartPage : Nat
  currentPage : Nat

/-- The chunk record pushed when a buffer closes (also used for the final
flush): trimmed content, the running token counter, a 100-character
preview. -/
def flushChunk (st : ChunkState) : PdfChunk :=
  { chunk_no := st.chunkNo, page_start := st.chunkStartPage, page_end := st.currentPage,
    content := strTrim st.currentChunk, tokens := st.currentTokens,
    preview := jsSubstring (strTrim st.currentChunk) 100 ++ "...",
    embedding := none }

def chunkWordStep (chunkSize overlap : Nat) (st : ChunkState) (word : String) : ChunkState :=
  let wordTokens := estimateTokens (word ++ " ")
  if st.currentTokens + wordTokens > chunkSize ∧ st.currentChunk.length > 0 then
    let overlapWords := jsSliceNeg (splitWs st.currentChunk) overlap
    let newCurrent := joinSpace overlapWords ++ " " ++ word ++ " "
    { chunks := st.chunks ++ [flushChunk st],
      chunkNo := st.chunkNo + 1,
      currentChunk := newCurrent,
      currentTokens := estimateTokens newCurrent,
      chunkStartPage := st.currentPage,
      currentPage := st.currentPage }
  else
    { st with currentChunk := st.currentChunk ++ word ++ " ",
              currentTokens := st.currentTokens + wordTokens }

def chunkPageStep (chunkSize overlap : Nat) (st : ChunkState) (page : Nat × String) : ChunkState :=
  let words := (splitWs page.2).filter (fun w => w.length > 0)
  words.foldl (chunkWordStep chunkSize overlap) { st with currentPage := page.1 }

def chunkInitState : ChunkState :=
  { chunks := [], chunkNo := 0, currentChunk := "", currentTokens := 0,
    chunkStartPage := 1, currentPage := 1 }

def insertPage (p : Nat × String) : List (Nat × String) → List (Nat × String)
  | [] => [p]
  | q :: rest => if p.1 ≤ q.1 then p :: q :: rest else q :: insertPage p rest

/-- `Array.from(pageTexts.entries()).sort((a, b) => a[0] - b[0])`: a
stable sort by page number (structural insertion sort; JS `sort` is
stable, and the page keys come from a `Map`, hence are unique, so the
sorted order is the same). -/
def sortPages : List (Nat × String) → List (Nat × String)
  | [] => []
  | p :: rest => insertPage p (sortPages rest)

/-- `chunkText(pageTexts, chunkSize, overlap)`: pages sorted by page
number, then per-page word loops, then the final partial buffer is
flushed whenever its trimmed content is nonempty. -/
def chunkText (pageTexts : List (Nat × String)) (chunkSize overlap : Nat) : List PdfChunk :=
  let pages := sortPages pageTexts
  let st := pages.foldl (chunkPageStep chunkSize overlap) chunkInitState
  if (strTrim st.currentChunk).length > 0 then st.chunks ++ [flushChunk st]
  else st.chunks

/-! ### Structural lemmas about `splitWs` -/

theorem splitWsGo_ne_nil : ∀ (n : Nat) (l acc : List Char), l.length ≤ n →
    splitWsGo n l acc ≠ [] := by
  intro n
  induction n with
  | zero =>
    intro l acc hl
    have : l = [] := List.length_eq_zero.mp (Nat.le_zero.mp hl)
    subst this
    simp [splitWsGo]
  | succ n ih =>
    intro l acc hl
    cases l with
    | nil => simp [splitWsGo]
    | cons c rest =>
      by_cases hc : isWsChar c
      · simp [splitWsGo, hc]
      · simp only [splitWsGo, hc, Bool.false_eq_true, if_false]
        exact ih rest (c :: acc) (by simp at hl; omega)

theorem splitWs_ne_nil (s : String) : splitWs s ≠ [] :=
  splitWsGo_ne_nil s.data.length s.data [] (le_refl _)

theorem splitWsGo_wsFree : ∀ (n : Nat) (l acc : List Char), l.length ≤ n →
    (∀ ch ∈ acc, isWsChar ch = false) →
    ∀ x ∈ splitWsGo n l acc, ∀ ch ∈ x.data, isWsChar ch = false := by
  intro n
  induction n with
  | zero =>
    intro l acc hl hacc x hx
    have : l = [] := List.length_eq_zero.mp (Nat.le_zero.mp hl)
    subst this
    simp only [splitWsGo, List.mem_singleton] at hx
    subst hx
    intro ch hch
    exact hacc ch (by simpa using hch)
  | succ n ih =>
    intro l acc hl hacc x hx
    cases l with
    | nil =>
      simp only [splitWsGo, List.mem_singleton] at hx
      subst hx
      intro ch hch
      exact hacc ch (by simpa using hch)
    | cons c rest =>
      by_cases hc : isWsChar c
      · simp only [splitWsGo, hc, if_true] at hx
        rcases List.mem_cons.mp hx with hx | hx
        · subst hx
          intro ch hch
          exact hacc ch (by simpa using hch)
        · have hsub : (rest.dropWhile (fun ch => isWsChar ch)).length ≤ n := by
            have hsl : List.Sublist (rest.dropWhile (fun ch => isWsChar ch)) rest :=
              List.dropWhile_sublist (fun ch => isWsChar ch)
            have := List.Sublist.length_le hsl
            simp at hl
            omega
          exact ih _ [] hsub (by simp) x hx
      · simp only [splitWsGo, hc, Bool.false_eq_true, if_false] at hx
        refine ih rest (c :: acc) (by simp at hl; omega) ?_ x hx
        intro ch hch
        rcases List.mem_cons.mp hch with hch | hch
        · subst hch; simpa using hc
        · exact hacc ch hch

theorem splitWs_wsFree (s : String) : ∀ x ∈ splitWs s, ∀ ch ∈ x.data, isWsChar ch = false :=
  splitWsGo_wsFree s.data.length s.data [] (le_refl _) (by simp)

/-- A whitespace-free nonempty word followed by a space splits as that one
word plus the trailing empty, for any sufficient fuel. -/
theorem splitWsGo_word_space : ∀ (m : List Char) (f : Nat) (acc : List Char), m ≠ [] →
    (∀ ch ∈ m, isWsChar ch = false) →
    m.length + 1 ≤ f →
    splitWsGo f (m ++ [' ']) acc = [String.mk (acc.reverse ++ m), ""] := by
  intro m
  induction m with
  | nil => intro f acc h; exact absurd rfl h
  | cons x m' ih =>
    intro f acc _ hfree hf
    have hx : isWsChar x = false := hfree x (List.mem_cons_self _ _)
    cases m' with
    | nil =>
      simp only [List.length_cons, List.length_nil] at hf
      obtain ⟨f2, rfl⟩ : ∃ f2, f = f2 + 2 := ⟨f - 2, by omega⟩
      show splitWsGo (f2 + 1 + 1) (x :: [' ']) acc = _
      simp only [splitWsGo, hx, Bool.false_eq_true, if_false]
      rw [if_pos (show isWsChar ' ' = true from rfl)]
      simp [splitWsGo, List.reverse_cons]
    | cons y m'' =>
      obtain ⟨f1, rfl⟩ : ∃ f1, f = f1 + 1 := ⟨f - 1, by omega⟩
      have hstep : splitWsGo (f1 + 1) ((x :: y :: m'') ++ [' ']) acc =
          splitWsGo f1 ((y :: m'') ++ [' ']) (x :: acc) := by
        simp [splitWsGo, hx]
      rw [hstep, ih f1 (x :: acc) (by simp)
        (fun ch hch => hfree ch (List.mem_cons_of_mem _ hch))
        (by simp at hf ⊢; omega)]
      simp

/-- `dropWhile` from the front keeps the last element when the result is
nonempty. -/
theorem dropWhile_getLast? (p : Char → Bool) : ∀ (l : List Char),
    l.dropWhile p ≠ [] → (l.dropWhile p).getLast? = l.getLast? := by
  intro l
  induction l with
  | nil => intro h; exact absurd rfl h
  | cons c rest ih =>
    intro hne
    by_cases hp : p c
    · rw [List.dropWhile_cons, if_pos hp] at hne ⊢
      have hrest : rest ≠ [] := by
        intro h
        subst h
        simp at hne
      rw [ih hne]
      cases rest with
      | nil => exact absurd rfl hrest
      | cons y t => simp
    · rw [List.dropWhile_cons, if_neg hp]

/-- Core membership lemma: appending a whitespace-free word and a space to
a buffer that is empty or ends in a space only adds that word (and the
boundary empty) to the split. -/
theorem splitWsGo_append_mem : ∀ (n : Nat) (l acc m : List Char) (f : Nat), l.length ≤ n →
    n + m.length + 1 ≤ f →
    (∀ ch ∈ m, isWsChar ch = false) →
    (l = [] → acc = []) →
    (l ≠ [] → l.getLast? = some ' ') →
    ∀ x ∈ splitWsGo f (l ++ m ++ [' ']) acc,
      x ∈ splitWsGo n l acc ∨ x = String.mk m ∨ x = "" := by
  intro n
  induction n with
  | zero =>
    intro l acc m f hl hf hm hacc _ x hx
    have : l = [] := List.length_eq_zero.mp (Nat.le_zero.mp hl)
    subst this
    rw [hacc rfl] at hx ⊢
    cases m with
    | nil =>
      obtain ⟨f1, rfl⟩ : ∃ f1, f = f1 + 1 := ⟨f - 1, by omega⟩
      simp only [List.nil_append, splitWsGo, isWsChar] at hx
      simp only [List.dropWhile_nil] at hx
      rcases List.mem_cons.mp hx with hx | hx
      · right; right; simpa using hx
      · right; right; simpa [splitWsGo] using hx
    | cons m0 mrest =>
      rw [List.nil_append, splitWsGo_word_space _ f [] (by simp) hm (by omega)] at hx
      rcases List.mem_cons.mp hx with hx | hx
      · right; left; simpa using hx
      · right; right; simpa using hx
  | succ n ih =>
    intro l acc m f hl hf hm hacc hlast x hx
    cases l with
    | nil =>
      have h0 := ih [] acc m f (by simp) (by omega) hm hacc (fun h => absurd rfl h) x hx
      have heq : splitWsGo n ([] : List Char) acc =
          splitWsGo (n + 1) ([] : List Char) acc := by
        simp [splitWsGo]
      rw [heq] at h0
      exact h0
    | cons c rest =>
      obtain ⟨f1, rfl⟩ : ∃ f1, f = f1 + 1 := ⟨f - 1, by omega⟩
      have hf1 : n + m.length + 1 ≤ f1 := by omega
      have hlast' : (c :: rest).getLast? = some ' ' := hlast (by simp)
      by_cases hc : isWsChar c
      · simp only [List.cons_append, splitWsGo, hc, if_true] at hx
        simp only [splitWsGo, hc, if_true]
        rcases List.mem_cons.mp hx with hx | hx
        · exact Or.inl (by rw [hx]; exact List.mem_cons_self _ _)
        · simp only [List.append_eq] at hx
          rw [List.append_assoc, List.dropWhile_append] at hx
          by_cases hall : (rest.dropWhile (fun ch => isWsChar ch)).isEmpty
          · rw [if_pos hall] at hx
            cases m with
            | nil =>
              simp only [List.nil_append] at hx
              have : ([' '].dropWhile (fun ch => isWsChar ch)) = [] := by
                simp [isWsChar]
              rw [this] at hx
              right; right
              simpa [splitWsGo] using hx
            | cons m0 mrest =>
              have hm0 : isWsChar m0 = false := hm m0 (List.mem_cons_self _ _)
              have heq2 : ((m0 :: mrest) ++ [' ']).dropWhile (fun ch => isWsChar ch) =
                  (m0 :: mrest) ++ [' '] := by
                simp [List.dropWhile_cons, hm0]
              rw [heq2, splitWsGo_word_space _ f1 [] (by simp) hm (by omega)] at hx
              rcases List.mem_cons.mp hx with hx | hx
              · right; left; simpa using hx
              · right; right; simpa using hx
          · rw [if_neg hall] at hx
            have hne : rest.dropWhile (fun ch => isWsChar ch) ≠ [] := by
              simpa [List.isEmpty_iff] using hall
            have hrest : rest ≠ [] := by
              intro h
              subst h
              simp at hne
            have hlen : (rest.dropWhile (fun ch => isWsChar ch)).length ≤ n := by
              have hsl : List.Sublist (rest.dropWhile (fun ch => isWsChar ch)) rest :=
                List.dropWhile_sublist (fun ch => isWsChar ch)
              have := List.Sublist.length_le hsl
              simp at hl
              omega
            have hlast2 : (rest.dropWhile (fun ch => isWsChar ch)).getLast? = some ' ' := by
              rw [dropWhile_getLast? _ rest hne]
              cases rest with
              | nil => exact absurd rfl hrest
              | cons y t => simpa using hlast'
            have := ih (rest.dropWhile (fun ch => isWsChar ch)) [] m f1 hlen hf1 hm
              (fun h => rfl) (fun _ => hlast2) x (by
                rw [← List.append_assoc] at hx
                exact hx)
            rcases this with h | h
            · exact Or.inl (List.mem_cons_of_mem _ h)
            · exact Or.inr h
      · have hrest : rest ≠ [] := by
          intro h
          subst h
          simp only [List.getLast?_singleton, Option.some.injEq] at hlast'
          rw [hlast'] at hc
          simp [isWsChar] at hc
        have hstep : splitWsGo (f1 + 1) ((c :: rest) ++ m ++ [' ']) acc =
            splitWsGo f1 (rest ++ m ++ [' ']) (c :: acc) := by
          simp [splitWsGo, hc]
        have hstep2 : splitWsGo (n + 1) (c :: rest) acc =
            splitWsGo n rest (c :: acc) := by
          simp [splitWsGo, hc]
        rw [hstep] at hx
        rw [hstep2]
        refine ih rest (c :: acc) m f1 (by simp at hl; omega) hf1 hm
          (fun h => absurd h hrest) (fun _ => ?_) x hx
        cases rest with
        | nil => exact absurd rfl hrest
        | cons y t => simpa using hlast'

/-- String-level wrapper of the membership lemma. -/
theorem splitWs_append_mem (s w : String)
    (hs : s = "" ∨ s.data.getLast? = some ' ')
    (hw : ∀ ch ∈ w.data, isWsChar ch = false) :
    ∀ x ∈ splitWs (s ++ w ++ " "), x ∈ splitWs s ∨ x = w ∨ x = "" := by
  intro x hx
  have hdata : (s ++ w ++ " ").data = s.data ++ w.data ++ [' '] := rfl
  have hflen : (s ++ w ++ " ").data.length = s.data.length + w.data.length + 1 := by
    rw [hdata]
    simp only [List.length_append, List.length_cons, List.length_nil]
  rw [splitWs, hflen, hdata] at hx
  have := splitWsGo_append_mem s.data.length s.data [] w.data
    (s.data.length + w.data.length + 1) (le_refl _) (le_refl _) hw
    (fun _ => rfl)
    (fun hne => by
      rcases hs with hs | hs
      · exact absurd (by rw [hs]) hne
      · exact hs) x hx
  rcases this with h | h | h
  · exact Or.inl h
  · exact Or.inr (Or.inl h)
  · exact Or.inr (Or.inr h)

/-! ### Word-fold lemmas: every buffer the chunker builds is a fold of
whitespace-free words, each followed by one space -/

theorem str_append_empty (s : String) : s ++ "" = s := by
  cases s with
  | mk data =>
    show String.mk (data ++ []) = String.mk data
    rw [List.append_nil]

theorem foldl_words_mem : ∀ (pieces : List String) (s : String),
    (s = "" ∨ s.data.getLast? = some ' ') →
    (∀ w ∈ pieces, ∀ ch ∈ w.data, isWsChar ch = false) →
    ∀ x ∈ splitWs (List.foldl (fun a w => a ++ w ++ " ") s pieces),
      x ∈ splitWs s ∨ x ∈ pieces ∨ x = "" := by
  intro pieces
  induction pieces with
  | nil => intro s _ _ x hx; exact Or.inl hx
  | cons w rest ih =>
    intro s hs hfree x hx
    have hs' : (s ++ w ++ " ") = "" ∨ (s ++ w ++ " ").data.getLast? = some ' ' := by
      right
      rw [show (s ++ w ++ " ").data = (s.data ++ w.data) ++ [' '] from rfl]
      exact List.getLast?_concat _
    have := ih (s ++ w ++ " ") hs'
      (fun u hu => hfree u (List.mem_cons_of_mem _ hu)) x (by simpa using hx)
    rcases this with h | h | h
    · rcases splitWs_append_mem s w hs (hfree w (List.mem_cons_self _ _)) x h with
        h2 | h2 | h2
      · exact Or.inl h2
      · exact Or.inr (Or.inl (by rw [h2]; exact List.mem_cons_self _ _))
      · exact Or.inr (Or.inr h2)
    · exact Or.inr (Or.inl (List.mem_cons_of_mem _ h))
    · exact Or.inr (Or.inr h)

theorem foldl_words_acc : ∀ (l : List String) (s : String),
    List.foldl (fun a w => a ++ w ++ " ") s l =
      s ++ List.foldl (fun a w => a ++ w ++ " ") "" l := by
  intro l
  induction l with
  | nil =>
    intro s
    exact (str_append_empty s).symm
  | cons w rest ih =>
    intro s
    show List.foldl _ (s ++ w ++ " ") rest = s ++ List.foldl _ ("" ++ w ++ " ") rest
    rw [ih (s ++ w ++ " "), ih ("" ++ w ++ " ")]
    simp [String.append_assoc, show ∀ u : String, "" ++ u = u from fun u => rfl]

theorem joinSpace_foldl : ∀ (l : List String), l ≠ [] →
    joinSpace l ++ " " = List.foldl (fun a w => a ++ w ++ " ") "" l := by
  intro l
  induction l with
  | nil => intro h; exact absurd rfl h
  | cons w rest ih =>
    intro _
    cases rest with
    | nil => rfl
    | cons y t =>
      show (w ++ " " ++ joinSpace (y :: t)) ++ " " = _
      rw [String.append_assoc, ih (by simp)]
      rw [show List.foldl (fun a u => a ++ u ++ " ") "" (w :: y :: t) =
        List.foldl (fun a u => a ++ u ++ " ") ("" ++ w ++ " ") (y :: t) from rfl]
      rw [foldl_words_acc (y :: t) ("" ++ w ++ " ")]
      simp [String.append_assoc, show ∀ u : String, "" ++ u = u from fun u => rfl]

theorem joinSpace_length (c : Nat) : ∀ (l : List String), (∀ w ∈ l, w.length ≤ c) →
    (joinSpace l).length ≤ l.length * (c + 1) := by
  intro l
  induction l with
  | nil => intro _; simp [joinSpace]
  | cons w rest ih =>
    intro hb
    cases rest with
    | nil =>
      have := hb w (List.mem_cons_self _ _)
      simpa [joinSpace] using by omega
    | cons y t =>
      have hw := hb w (List.mem_cons_self _ _)
      have hrest := ih (fun u hu => hb u (List.mem_cons_of_mem _ hu))
      show (w ++ " " ++ joinSpace (y :: t)).length ≤ _
      rw [String.length_append, String.length_append, List.length_cons, Nat.succ_mul]
      have hsp : (" " : String).length = 1 := rfl
      omega

theorem jsSliceNeg_subset (l : List α) (n : Nat) : ∀ x ∈ jsSliceNeg l n, x ∈ l := by
  intro x hx
  unfold jsSliceNeg at hx
  by_cases h : n = 0
  · rw [if_pos h] at hx; exact hx
  · rw [if_neg h] at hx; exact List.drop_subset _ _ hx

theorem jsSliceNeg_length_le (l : List α) (n : Nat) (hn : 0 < n) :
    (jsSliceNeg l n).length ≤ n := by
  unfold jsSliceNeg
  rw [if_neg (by omega)]
  rw [List.length_drop]
  omega

theorem jsSliceNeg_ne_nil (l : List α) (n : Nat) (hn : 0 < n) (hl : l ≠ []) :
    jsSliceNeg l n ≠ [] := by
  unfold jsSliceNeg
  rw [if_neg (by omega)]
  intro h
  have hlen := congrArg List.length h
  rw [List.length_drop] at hlen
  have : 0 < l.length := List.length_pos.mpr hl
  simp at hlen
  omega

/-! ### The chunk-state invariant -/

/-- An upper bound for the token estimate of a freshly seeded buffer
(`overlap` carried words plus the incoming word, each of length at most
`c`, separated and terminated by spaces). -/
def seedBound (overlap c : Nat) : Nat :=
  ((overlap + 1) * (c + 1) + 4) / 4

/-- Invariant maintained by the word loop: pushed chunks respect the token
bound, the running counter does too, the buffer is a fold of
whitespace-free words of length at most `c` each followed by one space,
and an empty buffer carries counter 0. -/
def ChunkStateInv (chunkSize overlap c : Nat) (st : ChunkState) : Prop :=
  (∀ ch ∈ st.chunks, ch.tokens ≤ max chunkSize (seedBound overlap c)) ∧
  st.currentTokens ≤ max chunkSize (seedBound overlap c) ∧
  (∃ pieces : List String,
    (∀ w ∈ pieces, (∀ chr ∈ w.data, isWsChar chr = false) ∧ w.length ≤ c) ∧
    st.currentChunk = List.foldl (fun a w => a ++ w ++ " ") "" pieces) ∧
  (st.currentChunk = "" → st.currentTokens = 0)

theorem string_length_zero {s : String} (h : s.length = 0) : s = "" := by
  cases s with
  | mk data =>
    have : data = [] := List.length_eq_zero.mp h
    rw [this]

theorem chunkWordStep_inv (chunkSize overlap c : Nat) (hov : 0 < overlap)
    {st : ChunkState} {word : String}
    (hfree : ∀ ch ∈ word.data, isWsChar ch = false)
    (hwlen : word.length ≤ c)
    (hinv : ChunkStateInv chunkSize overlap c st) :
    ChunkStateInv chunkSize overlap c (chunkWordStep chunkSize overlap st word) := by
  obtain ⟨hchunks, htok, ⟨pieces, hpieces, hrep⟩, hemp⟩ := hinv
  have hexp : (overlap + 1) * (c + 1) = overlap * (c + 1) + (c + 1) := by ring
  simp only [chunkWordStep]
  by_cases hcond : st.currentTokens + estimateTokens (word ++ " ") > chunkSize ∧
      st.currentChunk.length > 0
  · rw [if_pos hcond]
    have hspl : ∀ x ∈ splitWs st.currentChunk,
        (∀ ch ∈ x.data, isWsChar ch = false) ∧ x.length ≤ c := by
      intro x hx
      rw [hrep] at hx
      rcases foldl_words_mem pieces "" (Or.inl rfl)
        (fun u hu => (hpieces u hu).1) x hx with h | h | h
      · have : x = "" := by simpa [splitWs, splitWsGo] using h
        rw [this]
        exact ⟨by simp, by simp⟩
      · exact hpieces x h
      · rw [h]
        exact ⟨by simp, by simp⟩
    have hows_mem : ∀ x ∈ jsSliceNeg (splitWs st.currentChunk) overlap,
        (∀ ch ∈ x.data, isWsChar ch = false) ∧ x.length ≤ c :=
      fun x hx => hspl x (jsSliceNeg_subset _ _ x hx)
    have hows_len : (jsSliceNeg (splitWs st.currentChunk) overlap).length ≤ overlap :=
      jsSliceNeg_length_le _ _ hov
    have hows_ne : jsSliceNeg (splitWs st.currentChunk) overlap ≠ [] :=
      jsSliceNeg_ne_nil _ _ hov (splitWs_ne_nil _)
    have hjoin_len : (joinSpace (jsSliceNeg (splitWs st.currentChunk) overlap)).length ≤
        overlap * (c + 1) :=
      le_trans (joinSpace_length c _ (fun x hx => (hows_mem x hx).2))
        (Nat.mul_le_mul_right _ hows_len)
    have hnew_len : (joinSpace (jsSliceNeg (splitWs st.currentChunk) overlap) ++ " " ++
        word ++ " ").length ≤ overlap * (c + 1) + c + 2 := by
      rw [String.length_append, String.length_append, String.length_append]
      have hsp : (" " : String).length = 1 := rfl
      omega
    have hest : estimateTokens (joinSpace (jsSliceNeg (splitWs st.currentChunk) overlap) ++
        " " ++ word ++ " ") ≤ seedBound overlap c := by
      have h1 : (joinSpace (jsSliceNeg (splitWs st.currentChunk) overlap) ++
          " " ++ word ++ " ").length + 3 ≤ (overlap + 1) * (c + 1) + 4 := by
        rw [hexp]
        omega
      exact Nat.div_le_div_right h1
    refine ⟨?_, ?_, ?_, ?_⟩
    · intro ch hch
      rcases List.mem_append.mp hch with h | h
      · exact hchunks ch h
      · rw [List.mem_singleton.mp h]
        exact htok
    · exact le_trans hest (le_max_right _ _)
    · refine ⟨jsSliceNeg (splitWs st.currentChunk) overlap ++ [word], ?_, ?_⟩
      · intro w hw
        rcases List.mem_append.mp hw with h | h
        · exact hows_mem w h
        · rw [List.mem_singleton.mp h]
          exact ⟨hfree, hwlen⟩
      · show joinSpace (jsSliceNeg (splitWs st.currentChunk) overlap) ++ " " ++
          word ++ " " = _
        rw [List.foldl_append]
        rw [← joinSpace_foldl _ hows_ne]
        rfl
    · intro h
      exfalso
      have hlen2 := congrArg String.length h
      rw [String.length_append, String.length_append, String.length_append] at hlen2
      have hsp : (" " : String).length = 1 := rfl
      have hz : ("" : String).length = 0 := rfl
      omega
  · rw [if_neg hcond]
    have hrep' : st.currentChunk ++ word ++ " " =
        List.foldl (fun a w => a ++ w ++ " ") "" (pieces ++ [word]) := by
      rw [List.foldl_append, ← hrep]
      rfl
    refine ⟨hchunks, ?_, ⟨pieces ++ [word], ?_, hrep'⟩, ?_⟩
    · by_cases hb : st.currentChunk.length > 0
      · have hle : st.currentTokens + estimateTokens (word ++ " ") ≤ chunkSize := by
          rcases not_and_or.mp hcond with h | h
          · omega
          · exact absurd hb h
        exact le_trans hle (le_max_left _ _)
      · have hcc : st.currentChunk = "" := string_length_zero (by omega)
        have ht0 : st.currentTokens = 0 := hemp hcc
        have hwt : estimateTokens (word ++ " ") ≤ seedBound overlap c := by
          have h1 : (word ++ " ").length + 3 ≤ (overlap + 1) * (c + 1) + 4 := by
            rw [String.length_append, hexp]
            have hsp : (" " : String).length = 1 := rfl
            omega
          exact Nat.div_le_div_right h1
        show st.currentTokens + estimateTokens (word ++ " ") ≤ _
        rw [ht0]
        exact le_trans (by omega) (le_max_right _ _)
    · intro w hw
      rcases List.mem_append.mp hw with h | h
      · exact hpieces w h
      · rw [List.mem_singleton.mp h]
        exact ⟨hfree, hwlen⟩
    · intro h
      exfalso
      have hlen2 := congrArg String.length h
      rw [String.length_append, String.length_append] at hlen2
      have hsp : (" " : String).length = 1 := rfl
      have hz : ("" : String).length = 0 := rfl
      omega

theorem foldl_chunkWordStep_inv (chunkSize overlap c : Nat) (hov : 0 < overlap) :
    ∀ (ws : List String) (st : ChunkState),
      (∀ w ∈ ws, (∀ ch ∈ w.data, isWsChar ch = false) ∧ w.length ≤ c) →
      ChunkStateInv chunkSize overlap c st →
      ChunkStateInv chunkSize overlap c
        (ws.foldl (chunkWordStep chunkSize overlap) st) := by
  intro ws
  induction ws with
  | nil => intro st _ h; simpa using h
  | cons w rest ih =>
    intro st hws h
    exact ih _ (fun u hu => hws u (List.mem_cons_of_mem _ hu))
      (chunkWordStep_inv chunkSize overlap c hov (hws w (List.mem_cons_self _ _)).1
        (hws w (List.mem_cons_self _ _)).2 h)

theorem chunkPageStep_inv (chunkSize overlap c : Nat) (hov : 0 < overlap)
    {st : ChunkState} {page : Nat × String}
    (hw : ∀ w ∈ splitWs page.2, w.length ≤ c)
    (hinv : ChunkStateInv chunkSize overlap c st) :
    ChunkStateInv chunkSize overlap c (chunkPageStep chunkSize overlap st page) := by
  simp only [chunkPageStep]
  refine foldl_chunkWordStep_inv chunkSize overlap c hov _ _ ?_ ?_
  · intro w hwmem
    have hmem := List.mem_of_mem_filter hwmem
    exact ⟨splitWs_wsFree page.2 w hmem, hw w hmem⟩
  · exact ⟨hinv.1, hinv.2.1, hinv.2.2.1, hinv.2.2.2⟩

theorem foldl_chunkPageStep_inv (chunkSize overlap c : Nat) (hov : 0 < overlap) :
    ∀ (ps : List (Nat × String)) (st : ChunkState),
      (∀ p ∈ ps, ∀ w ∈ splitWs p.2, w.length ≤ c) →
      ChunkStateInv chunkSize overlap c st →
      ChunkStateInv chunkSize overlap c
        (ps.foldl (chunkPageStep chunkSize overlap) st) := by
  intro ps
  induction ps with
  | nil => intro st _ h; simpa using h
  | cons p rest ih =>
    intro st hps h
    exact ih _ (fun q hq => hps q (List.mem_cons_of_mem _ hq))
      (chunkPageStep_inv chunkSize overlap c hov (hps p (List.mem_cons_self _ _)) h)

theorem mem_insertPage {q p : Nat × String} : ∀ {l : List (Nat × String)},
    q ∈ insertPage p l → q = p ∨ q ∈ l := by
  intro l
  induction l with
  | nil =>
    intro h
    simp only [insertPage, List.mem_singleton] at h
    exact Or.inl h
  | cons r rest ih =>
    intro h
    by_cases hc : p.1 ≤ r.1
    · simp only [insertPage, if_pos hc] at h
      rcases List.mem_cons.mp h with h | h
      · exact Or.inl h
      · exact Or.inr h
    · simp only [insertPage, if_neg hc] at h
      rcases List.mem_cons.mp h with h | h
      · exact Or.inr (by rw [h]; exact List.mem_cons_self _ _)
      · rcases ih h with h | h
        · exact Or.inl h
        · exact Or.inr (List.mem_cons_of_mem _ h)

theorem mem_sortPages {q : Nat × String} : ∀ {l : List (Nat × String)},
    q ∈ sortPages l → q ∈ l := by
  intro l
  induction l with
  | nil =>
    intro h
    simp [sortPages] at h
  | cons p rest ih =>
    intro h
    rcases mem_insertPage (by simpa [sortPages] using h) with h2 | h2
    · rw [h2]; exact List.mem_cons_self _ _
    · exact List.mem_cons_of_mem _ (ih h2)

/-- C7 (amended): for overlapping chunking (`overlap > 0`) over pages whose
whitespace-split words all have length at most `c`, every chunk's recorded
token estimate is at most `max chunkSize (((overlap+1)*(c+1)+4)/4)`: the
plain `chunkSize` bound holds except when the re-estimated overlap seed
(carried words plus the split-triggering word) itself exceeds `chunkSize`,
and that seed estimate is bounded by `seedBound overlap c`.  The
unqualified "never exceeds chunkSize" reading is refuted by the
counterexample below. -/
theorem chunkText_token_bound (pageTexts : List (Nat × String))
    (chunkSize overlap c : Nat) (hov : 0 < overlap)
    (hw : ∀ p ∈ pageTexts, ∀ w ∈ splitWs p.2, w.length ≤ c) :
    ∀ ch ∈ chunkText pageTexts chunkSize overlap,
      ch.tokens ≤ max chunkSize (seedBound overlap c) := by
  unfold chunkText
  have hpages : ∀ p ∈ sortPages pageTexts,
      ∀ w ∈ splitWs p.2, w.length ≤ c := by
    intro p hp
    exact hw p (mem_sortPages hp)
  have hinit : ChunkStateInv chunkSize overlap c chunkInitState :=
    ⟨by simp [chunkInitState], by simp [chunkInitState], ⟨[], by simp, rfl⟩, fun _ => rfl⟩
  have hfold : ChunkStateInv chunkSize overlap c
      ((sortPages pageTexts).foldl
        (chunkPageStep chunkSize overlap) chunkInitState) :=
    foldl_chunkPageStep_inv chunkSize overlap c hov _ chunkInitState hpages hinit
  obtain ⟨hchunks, htok, _, _⟩ := hfold
  intro ch hch
  by_cases hfin : (strTrim ((sortPages pageTexts).foldl
      (chunkPageStep chunkSize overlap) chunkInitState).currentChunk).length > 0
  · rw [if_pos hfin] at hch
    rcases List.mem_append.mp hch with h | h
    · exact hchunks ch h
    · rw [List.mem_singleton.mp h]
      exact htok
  · rw [if_neg hfin] at hch
    exact hchunks ch hch

/-- C7 counterexample: seven 7-character words, `chunkSize = 10`,
`overlap = 5`.  The second chunk (index 1 of 3 — not the final chunk, and
holding five words, not one) records 11 estimated tokens, exceeding
`chunkSize = 10`: its overlap seed was re-estimated above the limit, a
case the claim's "final overflow word" exception does not cover. -/
theorem chunkText_exceeds_chunkSize_counterexample :
    ((chunkText [(1, "aaaaaaa aaaaaaa aaaaaaa aaaaaaa aaaaaaa aaaaaaa aaaaaaa")] 10 5).map
      (fun ch => (ch.tokens, ch.content))) =
      [(10, "aaaaaaa aaaaaaa aaaaaaa aaaaaaa aaaaaaa"),
       (11, "aaaaaaa aaaaaaa aaaaaaa aaaaaaa  aaaaaaa"),
       (11, "aaaaaaa aaaaaaa aaaaaaa aaaaaaa  aaaaaaa")] := by
  decide

/-- Witness for the amended C7 theorem at a concrete small input. -/
theorem chunkText_token_bound_witness :
    0 < 5 ∧ (∀ p ∈ [((1 : Nat), "aa bb")], ∀ w ∈ splitWs p.2, w.length ≤ 2) ∧
    ∀ ch ∈ chunkText [((1 : Nat), "aa bb")] 10 5,
      ch.tokens ≤ max 10 (seedBound 5 2) :=
  ⟨by decide, by decide,
    chunkText_token_bound [((1 : Nat), "aa bb")] 10 5 2 (by decide) (by decide)⟩

/-! ## Thread memory (db.ts lines 207–258: `getThreadMessages`,
`getThreadSummary`; `summarizeThread` calls OpenAI and enters as an
oracle).  The `if (!db) return ""` guard is outside this model: the DB
collaborator supplies the thread's messages, oldest first. -/

structure DbMessage where
  role : String
  content : String
  tokenCount : Option Nat

/-- `getThreadMessages(threadId, limit)`: `orderBy(pdfMessages.createdAt)`
ascending with `.limit(limit)` returns the OLDEST `limit` messages of the
thread.  `msgs` is the full message list, oldest first. -/
def getThreadMessages (msgs : List DbMessage) (limit : Nat) : List DbMessage :=
  msgs.take limit

def msgLine (m : DbMessage) : String :=
  m.role ++ ": " ++ m.content

/-- JS `arr.join("\n")`. -/
def joinLines : List String → String
  | [] => ""
  | [x] => x
  | x :: y :: rest => x ++ "\n" ++ joinLines (y :: rest)

/-- `messages.map(m => role + ": " + content).join("\n")`. -/
def transcript (ms : List DbMessage) : String :=
  joinLines (ms.map msgLine)

/-- `messages.reduce((sum, msg) => sum + (msg.tokenCount || 0), 0)`. -/
def totalTokens (ms : List DbMessage) : Nat :=
  ms.foldl (fun sum m => sum + m.tokenCount.getD 0) 0

/-- `getThreadSummary(threadId)`: fetches up to 100 messages, returns the
verbatim transcript under 2500 summed tokens, otherwise a summary of
`slice(0, -10)` followed by `slice(-10)` verbatim. -/
def getThreadSummary (summarize : List DbMessage → String)
    (msgs : List DbMessage) : String :=
  let messages := getThreadMessages msgs 100
  if messages.length = 0 then ""
  else if totalTokens messages < 2500 then transcript messages
  else
    "Previous conversation summary:\n" ++
      summarize (messages.take (messages.length - 10)) ++
      "\n\nRecent messages:\n" ++ transcript (jsSliceNeg messages 10)

/-- C9 (amended): `getThreadSummary` operates on the FIRST up-to-100
messages of the thread (ascending `createdAt` with `limit(100)`), not the
last up-to-100 as claimed.  Over that window both claimed branches hold:
below 2500 summed tokens the verbatim `role: content` transcript, oldest
first; at or above 2500 a summary of all but the window's last 10
messages followed by those 10 verbatim. -/
theorem getThreadSummary_first100_spec (summarize : List DbMessage → String)
    (msgs : List DbMessage) (hne : msgs ≠ []) :
    (totalTokens (msgs.take 100) < 2500 →
      getThreadSummary summarize msgs = transcript (msgs.take 100)) ∧
    (2500 ≤ totalTokens (msgs.take 100) →
      getThreadSummary summarize msgs =
        "Previous conversation summary:\n" ++
          summarize ((msgs.take 100).take ((msgs.take 100).length - 10)) ++
          "\n\nRecent messages:\n" ++ transcript (jsSliceNeg (msgs.take 100) 10)) := by
  have hlen : ¬ (msgs.take 100).length = 0 := by
    cases msgs with
    | nil => exact absurd rfl hne
    | cons m rest => simp
  constructor
  · intro hlt
    simp only [getThreadSummary, getThreadMessages]
    rw [if_neg hlen, if_pos hlt]
  · intro hge
    simp only [getThreadSummary, getThreadMessages]
    rw [if_neg hlen, if_neg (by omega : ¬ totalTokens (msgs.take 100) < 2500)]

def c9a : DbMessage := { role := "user", content := "a", tokenCount := some 1 }

def c9b : DbMessage := { role := "user", content := "b", tokenCount := some 1 }

/-- 101 one-token messages; only the newest has content "b". -/
def c9msgs : List DbMessage := List.replicate 100 c9a ++ [c9b]

def c9big : DbMessage := { role := "assistant", content := "x", tokenCount := some 3000 }

set_option maxRecDepth 100000 in
/-- C9 counterexample: with 101 one-token messages the summed estimate is
far below 2500, so the spec predicts the verbatim transcript of the LAST
up-to-100 messages — but the code returns the transcript of the FIRST
100, which differs (its newest line is "user: a", not "user: b"). -/
theorem getThreadSummary_last100_counterexample :
    getThreadSummary (fun _ => "") c9msgs = transcript (c9msgs.take 100) ∧
    getThreadSummary (fun _ => "") c9msgs ≠ transcript (jsSliceNeg c9msgs 100) := by
  constructor
  · decide
  · decide

/-- Witness for the amended C9 theorem: one small thread in each branch. -/
theorem getThreadSummary_first100_spec_witness :
    getThreadSummary (fun _ => "SUM") [c9a] = transcript ([c9a].take 100) ∧
    getThreadSummary (fun _ => "SUM") [c9big] =
      "Previous conversation summary:\n" ++ "SUM" ++
        "\n\nRecent messages:\n" ++ transcript (jsSliceNeg ([c9big].take 100) 10) :=
  ⟨(getThreadSummary_first100_spec (fun _ => "SUM") [c9a] (by simp)).1 (by decide),
   (getThreadSummary_first100_spec (fun _ => "SUM") [c9big] (by simp)).2 (by decide)⟩

/-! ## Indexing job (routers.ts `indexes.triggerIndex` lines 92–137,
indexing.ts `indexPdf` lines 529–583 and `saveIndex` lines 487–503,
db.ts `createOrUpdateIndex` lines 163–178)

External collaborators enter as parameters: the file read, the PDF text
extraction and the embedding call are `Except`-valued (they can throw),
the MD5 hash is a function on the byte buffer.  The persisted index file
and the `pdf_indexes` DB row for this file are the explicit state. -/

structure IndexResult where
  success : Bool
  chunkCount : Nat
  checksum : List Nat
  error : Option String

/-- `saveIndex(fileId, chunks, checksum)`: the index JSON written to disk
becomes the new disk contents for this file. -/
def saveIndex (fileId : Nat) (chunks : List PdfChunk) (checksum : List Nat)
    (indexedAt : String) : PdfIndex :=
  { fileId := fileId, checksum := checksum, chunks := chunks,
    indexedAt := indexedAt, totalChunks := chunks.length }

/-- `indexPdf(fileId, filePath, onProgress)`: checksum, extract, chunk
(`CHUNK_SIZE = 800`, `CHUNK_OVERLAP = 100`), embed, save — the whole body
in a try/catch that converts a thrown error into a typed failure result.
Paired with the disk state after the call: only the final `saveIndex`
step writes it. -/
def indexPdf (fileId : Nat) (md5 : List Nat → List Nat)
    (readFileRes : Except String (List Nat))
    (extractRes : Except String (List (Nat × String)))
    (embedRes : List PdfChunk → Except String (List PdfChunk))
    (indexedAt : String) (disk : Option PdfIndex) :
    IndexResult × Option PdfIndex :=
  match readFileRes with
  | Except.error e =>
    ({ success := false, chunkCount := 0, checksum := [], error := some e }, disk)
  | Except.ok buffer =>
    match extractRes with
    | Except.error e =>
      ({ success := false, chunkCount := 0, checksum := [], error := some e }, disk)
    | Except.ok pageTexts =>
      let chunks := chunkText pageTexts 800 100
      match embedRes chunks with
      | Except.error e =>
        ({ success := false, chunkCount := 0, checksum := [], error := some e }, disk)
      | Except.ok chunksWithEmbeddings =>
        ({ success := true, chunkCount := chunks.length, checksum := md5 buffer,
           error := none },
         some (saveIndex fileId chunksWithEmbeddings (md5 buffer) indexedAt))

structure DbIndexRec where
  fileId : Nat
  status : String
  progress : Option Nat
  chunkCount : Option Nat
  checksum : Option (List Nat)
  indexPath : Option String
  indexedAt : Option String
  errorMessage : Option String

structure IndexWorld where
  disk : Option PdfIndex
  db : Option DbIndexRec

/-- `createOrUpdateIndex` with the INDEXING payload `triggerIndex` issues
before starting the background job: updates merge into an existing row,
inserts create one with the remaining columns null. -/
def indexingUpdate (fileId : Nat) : Option DbIndexRec → DbIndexRec
  | some r => { r with status := "INDEXING", progress := some 0 }
  | none =>
    { fileId := fileId
      status := "INDEXING"
      progress := some 0
      chunkCount := none
      checksum := none
      indexPath := none
      indexedAt := none
      errorMessage := none }

/-- The READY payload on `result.success`. -/
def readyUpdate (fileId : Nat) (res : IndexResult) (indexedAt : String) :
    Option DbIndexRec → DbIndexRec
  | some r =>
    { r with
      status := "READY"
      progress := some 100
      chunkCount := some res.chunkCount
      checksum := some res.checksum
      indexPath := some (".local-storage/indexes/" ++ toString fileId ++ ".json")
      indexedAt := some indexedAt }
  | none =>
    { fileId := fileId
      status := "READY"
      progress := some 100
      chunkCount := some res.chunkCount
      checksum := some res.checksum
      indexPath := some (".local-storage/indexes/" ++ toString fileId ++ ".json")
      indexedAt := some indexedAt
      errorMessage := none }

/-- The ERROR payload on a failed result: status and errorMessage only. -/
def errorUpdate (fileId : Nat) (e : Option String) : Option DbIndexRec → DbIndexRec
  | some r => { r with status := "ERROR", errorMessage := e }
  | none =>
    { fileId := fileId
      status := "ERROR"
      progress := none
      chunkCount := none
      checksum := none
      indexPath := none
      indexedAt := none
      errorMessage := e }

/-- The background IIFE in `indexes.triggerIndex`: set INDEXING, run
`indexPdf`, then mark READY on success or ERROR (recording the message)
on a failed result. -/
def runIndexJob (fileId : Nat) (md5 : List Nat → List Nat)
    (readFileRes : Except String (List Nat))
    (extractRes : Except String (List (Nat × String)))
    (embedRes : List PdfChunk → Except String (List PdfChunk))
    (indexedAt : String) (w : IndexWorld) : IndexWorld :=
  let db1 : Option DbIndexRec := some (indexingUpdate fileId w.db)
  let res := indexPdf fileId md5 readFileRes extractRes embedRes indexedAt w.disk
  if res.1.success then
    { disk := res.2, db := some (readyUpdate fileId res.1 indexedAt db1) }
  else
    { disk := res.2, db := some (errorUpdate fileId res.1.error db1) }

/-- `loadIndex(fileId)`: reads the persisted index file, `null` if absent. -/
def loadIndex (w : IndexWorld) : Option PdfIndex := w.disk

/-- C3: if the file read, PDF extraction or embedding throws, the build
aborts: the disk index is exactly what it was before the job (no
half-built index), the DB row ends in status "ERROR" with the thrown
message recorded, and the Retriever — `retrieveContext` over the loaded
index — returns the same result as before the failed build, for every
query, `k`, `lambda` and context budget. -/
theorem indexJob_failure_preserves_index (fileId : Nat) (md5 : List Nat → List Nat)
    (readFileRes : Except String (List Nat))
    (extractRes : Except String (List (Nat × String)))
    (embedRes : List PdfChunk → Except String (List PdfChunk))
    (indexedAt : String) (w : IndexWorld)
    (hfail : (indexPdf fileId md5 readFileRes extractRes embedRes indexedAt
        w.disk).1.success = false) :
    loadIndex (runIndexJob fileId md5 readFileRes extractRes embedRes indexedAt w) =
      loadIndex w ∧
    ((runIndexJob fileId md5 readFileRes extractRes embedRes indexedAt w).db.map
      (fun r => r.status)) = some "ERROR" ∧
    (∃ msg, (indexPdf fileId md5 readFileRes extractRes embedRes indexedAt
          w.disk).1.error = some msg ∧
      ((runIndexJob fileId md5 readFileRes extractRes embedRes indexedAt w).db.bind
        (fun r => r.errorMessage)) = some msg) ∧
    (∀ (queryEmbedsRes : Except String (List (List ℝ))) (k : Nat) (lam : ℝ)
        (maxContextTokens : Nat),
      retrieveContext
          (loadIndex (runIndexJob fileId md5 readFileRes extractRes embedRes indexedAt w))
          queryEmbedsRes k lam maxContextTokens =
        retrieveContext (loadIndex w) queryEmbedsRes k lam maxContextTokens) := by
  cases readFileRes with
  | error e =>
    exact ⟨rfl, rfl, ⟨e, rfl, rfl⟩, fun _ _ _ _ => rfl⟩
  | ok buffer =>
    cases extractRes with
    | error e =>
      exact ⟨rfl, rfl, ⟨e, rfl, rfl⟩, fun _ _ _ _ => rfl⟩
    | ok pageTexts =>
      cases hemb : embedRes (chunkText pageTexts 800 100) with
      | error e =>
        have hdisk : loadIndex (runIndexJob fileId md5 (Except.ok buffer)
            (Except.ok pageTexts) embedRes indexedAt w) = loadIndex w := by
          simp [runIndexJob, indexPdf, hemb, loadIndex]
        refine ⟨hdisk, ?_, ⟨e, ?_, ?_⟩, ?_⟩
        · simp [runIndexJob, indexPdf, hemb, errorUpdate, indexingUpdate]
        · simp [indexPdf, hemb]
        · simp [runIndexJob, indexPdf, hemb, errorUpdate, indexingUpdate]
        · intro q k lam m
          rw [hdisk]
      | ok goodChunks =>
        exfalso
        simp [indexPdf, hemb] at hfail

def c3chunk : PdfChunk :=
  { chunk_no := 0
    page_start := 1
    page_end := 1
    content := "old"
    tokens := 1
    preview := "old"
    embedding := some [1] }

def c3index : PdfIndex :=
  { fileId := 7
    checksum := [1, 2]
    chunks := [c3chunk]
    indexedAt := "t0"
    totalChunks := 1 }

/-- A world holding a previously built READY index for file 7. -/
def c3world : IndexWorld :=
  { disk := some c3index
    db := some
      { fileId := 7
        status := "READY"
        progress := some 100
        chunkCount := some 1
        checksum := some [1, 2]
        indexPath := some ".local-storage/indexes/7.json"
        indexedAt := some "t0"
        errorMessage := none } }

/-- Witness for C3 at a concrete world: PDF extraction throws. -/
theorem indexJob_failure_preserves_index_witness :
    loadIndex (runIndexJob 7 id (Except.ok [5]) (Except.error "PDF parse failed")
        (fun cs => Except.ok cs) "t1" c3world) = loadIndex c3world ∧
    ((runIndexJob 7 id (Except.ok [5]) (Except.error "PDF parse failed")
        (fun cs => Except.ok cs) "t1" c3world).db.map (fun r => r.status)) =
      some "ERROR" ∧
    (∃ msg, (indexPdf 7 id (Except.ok [5]) (Except.error "PDF parse failed")
          (fun cs => Except.ok cs) "t1" c3world.disk).1.error = some msg ∧
      ((runIndexJob 7 id (Except.ok [5]) (Except.error "PDF parse failed")
          (fun cs => Except.ok cs) "t1" c3world).db.bind
        (fun r => r.errorMessage)) = some msg) ∧
    (∀ (queryEmbedsRes : Except String (List (List ℝ))) (k : Nat) (lam : ℝ)
        (maxContextTokens : Nat),
      retrieveContext
          (loadIndex (runIndexJob 7 id (Except.ok [5]) (Except.error "PDF parse failed")
            (fun cs => Except.ok cs) "t1" c3world))
          queryEmbedsRes k lam maxContextTokens =
        retrieveContext (loadIndex c3world) queryEmbedsRes k lam maxContextTokens) :=
  indexJob_failure_preserves_index 7 id (Except.ok [5])
    (Except.error "PDF parse failed") (fun cs => Except.ok cs) "t1" c3world rfl

end LseRag
